import Mathlib

/-!
# Verification of the module-graph / HMR / transform-pipeline core

This file gives a shallow embedding, in Lean 4, of the dev-server core found in
`packages/vite/src/node/server/hmr.ts`, `packages/vite/src/node/server/transformRequest.ts`
and the module-graph file (`ModuleGraph` / `ModuleNode`), together with theorems that settle
the specification claims about it.

Conventions of the embedding:
* A JS `ModuleNode` object is identified by a `Nat` id; the mutable heap of nodes is a total
  function `Nat → NodeData`; mutation is functional update.
* JS `Set` objects are embedded as `List` values in insertion order; `Set.add` appends when the
  element is absent, `Set.delete` removes the element, membership is list membership.
* Recursive graph walks (which terminate in JS because the visited set / chain grows inside a
  finite heap) take an explicit fuel argument and return `Option`/truncate when fuel runs out;
  theorems supply enough fuel.
* Fallible code returns `Except`/`Option` instead of throwing.
-/

set_option maxHeartbeats 1000000

/-- The single-quote character `'` (written via its code point). -/
def singleQuoteChar : Char := Char.ofNat 39

/-- The double-quote character. -/
def doubleQuoteChar : Char := Char.ofNat 34

/-- The backtick character. -/
def backtickChar : Char := Char.ofNat 96

/-- The opening-brace character. -/
def openBraceChar : Char := Char.ofNat 123

/-- Modelled from JavaScript regular-expression semantics: the character class `\s`
(whitespace) used by the accept-dep lexer's `/\s/.test(char)`. -/
def isJsWhitespace (c : Char) : Bool :=
  c = ' ' || c = Char.ofNat 9 || c = Char.ofNat 10 || c = Char.ofNat 11 ||
  c = Char.ofNat 12 || c = Char.ofNat 13 || c = Char.ofNat 0xa0 || c = Char.ofNat 0x1680 ||
  (0x2000 ≤ c.toNat && c.toNat ≤ 0x200a) || c = Char.ofNat 0x2028 || c = Char.ofNat 0x2029 ||
  c = Char.ofNat 0x202f || c = Char.ofNat 0x205f || c = Char.ofNat 0x3000 ||
  c = Char.ofNat 0xfeff

/-- Modelled from the spec: `cleanUrl` (from `utils`, not under `src/`) strips the query and
hash from a url — everything from the first `?` or `#` on is dropped. -/
def cleanUrl (url : String) : String :=
  ⟨url.data.takeWhile (fun c => c ≠ '?' && c ≠ '#')⟩

/-- Whether `pat` occurs at the head of `l` (helper for substring tests; structural so that
concrete instances reduce definitionally). -/
def charsPrefixAt : List Char → List Char → Bool
  | _, [] => true
  | [], _ :: _ => false
  | c :: rest, p :: ps => c = p && charsPrefixAt rest ps

/-- Whether `pat` occurs anywhere in `l`. -/
def charsContain (l pat : List Char) : Bool :=
  match l with
  | [] => charsPrefixAt [] pat
  | _ :: rest => charsPrefixAt l pat || charsContain rest pat

/-- `String.endsWith`, restated over the character lists so that concrete instances reduce
definitionally. -/
def strEndsWith (s suffix : String) : Bool :=
  s.data.drop (s.data.length - suffix.data.length) == suffix.data

/-- Substring containment over strings. -/
def strContains (s pat : String) : Bool := charsContain s.data pat.data

/-- Modelled from the spec: `isCSSRequest` (from `plugins/css`, not under `src/`) recognizes a
request for a CSS-family file: one of the CSS extensions followed by the end of the url or by
a query string. -/
def isCSSRequest (url : String) : Bool :=
  ["css", "less", "sass", "scss", "styl", "stylus", "pcss", "postcss"].any fun l =>
    strEndsWith url ("." ++ l) || strContains url ("." ++ l ++ "?")

/-- Modelled from the spec: `isDirectCSSRequest` (from `plugins/css`, not under `src/`) — a
CSS request carrying the `direct` query. -/
def isDirectCSSRequest (url : String) : Bool :=
  isCSSRequest url && (strContains url "?direct" || strContains url "&direct")

/-- Modelled from the spec: `normalizePath` (from `utils`, not under `src/`) is the identity
on posix paths (it only rewrites Windows separators). -/
def normalizePath (p : String) : String := p

/-- Modelled from the spec: the `FS_PREFIX` constant (`constants.ts` is not under `src/`);
the synthetic url prefix for file-only entries. -/
def FS_PREFIX : String := "/@fs/"

/-- The cached transform result stored on a module node: `code` plus its weak etag
(the `map` component is not modelled; no claim mentions it). -/
structure TransformResultM where
  code : String
  etag : String
deriving DecidableEq, Repr

/-- The data of one `ModuleNode` (`moduleGraph.ts`). `importers`, `importedModules` and
`acceptedHmrDeps` are JS `Set`s of nodes, embedded as lists of node ids in insertion order.
`info` and `ssrModule` only record presence/absence of those fields. -/
structure NodeData where
  url : String
  id : Option String := none
  file : Option String := none
  type : String
  meta : Option String := none
  info : Bool := false
  importers : List Nat := []
  importedModules : List Nat := []
  acceptedHmrDeps : List Nat := []
  isSelfAccepting : Bool := false
  transformResult : Option TransformResultM := none
  ssrTransformResult : Option TransformResultM := none
  ssrModule : Bool := false
  lastHMRTimestamp : Nat := 0
deriving DecidableEq, Repr

/-- The `ModuleNode` constructor: `type` is fixed at creation from the url. -/
def mkModuleNode (url : String) : NodeData :=
  { url := url, type := if isDirectCSSRequest url then "css" else "js" }

/-- Functional update of one node in the heap. -/
def setNode (g : Nat → NodeData) (n : Nat) (f : NodeData → NodeData) : Nat → NodeData :=
  fun k => if k = n then f (g k) else g k

/-- JS `Set.add` on the list embedding: append when absent. -/
def insertOnce (l : List Nat) (x : Nat) : List Nat := if x ∈ l then l else l ++ [x]

/-- JS `Set.delete` on the list embedding. -/
def setDelete (l : List Nat) (x : Nat) : List Nat := l.filter (fun y => y ≠ x)

/-! ## HMR propagator (`hmr.ts`)

`invalidate(mod, timestamp, seen)` (hmr.ts lines 333–351): clear the module's cached results,
bump its HMR timestamp, and recurse into every importer that does not declare `mod` among its
accepted HMR deps. -/

/-- The `mod.importers.forEach` loop of `invalidate`, parametrized by the recursive call. -/
def invalidateLoop
    (rec : (Nat → NodeData) → Nat → List Nat → Option ((Nat → NodeData) × List Nat))
    (m : Nat) :
    List Nat → (Nat → NodeData) → List Nat → Option ((Nat → NodeData) × List Nat)
  | [], g, seen => some (g, seen)
  | imp :: rest, g, seen =>
    if m ∈ (g imp).acceptedHmrDeps then
      invalidateLoop rec m rest g seen
    else
      match rec g imp seen with
      | none => none
      | some (g', seen') => invalidateLoop rec m rest g' seen'

/-- `invalidate` from hmr.ts (fuel-indexed). Returns the updated heap and visited set, or
`none` when fuel runs out. -/
def invalidateFuel (ts : Nat) :
    Nat → (Nat → NodeData) → Nat → List Nat → Option ((Nat → NodeData) × List Nat)
  | 0, _, _, _ => none
  | fuel + 1, g, m, seen =>
    if m ∈ seen then some (g, seen)
    else
      let seen' := m :: seen
      let g' := setNode g m fun nd =>
        { nd with lastHMRTimestamp := ts, transformResult := none,
                  ssrModule := false, ssrTransformResult := none }
      invalidateLoop (invalidateFuel ts fuel) m ((g' m).importers) g' seen'

/-! `propagateUpdate(node, boundaries, currentChain)` (hmr.ts lines 261–325). `boundaries` is
a JS `Set` of freshly allocated `{boundary, acceptedVia}` objects, hence effectively an
insertion-ordered list of node-id pairs. The function returns `hasDeadEnd`. -/

/-- The CSS-importer loop of the self-accepting branch, parametrized by the recursive call.
Note: the source discards the boolean result of the recursive `propagateUpdate` call here, but
keeps the boundary-set mutations. -/
def cssImporterLoop (g : Nat → NodeData)
    (rec : Nat → List (Nat × Nat) → List Nat → Option (Bool × List (Nat × Nat))) :
    List Nat → List (Nat × Nat) → List Nat → Option (List (Nat × Nat))
  | [], bs, _ => some bs
  | imp :: rest, bs, chain =>
    if isCSSRequest (g imp).url && !(chain.contains imp) then
      match rec imp bs (chain ++ [imp]) with
      | none => none
      | some (_, bs') => cssImporterLoop g rec rest bs' chain
    else cssImporterLoop g rec rest bs chain

/-- The main importer loop of `propagateUpdate`, parametrized by the recursive call. -/
def importerLoop (g : Nat → NodeData)
    (rec : Nat → List (Nat × Nat) → List Nat → Option (Bool × List (Nat × Nat)))
    (node : Nat) :
    List Nat → List (Nat × Nat) → List Nat → Option (Bool × List (Nat × Nat))
  | [], bs, _ => some (false, bs)
  | imp :: rest, bs, chain =>
    if node ∈ (g imp).acceptedHmrDeps then
      importerLoop g rec node rest (bs ++ [(imp, node)]) chain
    else if imp ∈ chain then
      some (true, bs)
    else
      match rec imp bs (chain ++ [imp]) with
      | none => none
      | some (true, bs') => some (true, bs')
      | some (false, bs') => importerLoop g rec node rest bs' chain

/-- `propagateUpdate` from hmr.ts (fuel-indexed): returns `(hasDeadEnd, boundaries)`. -/
def propagateFuel (g : Nat → NodeData) :
    Nat → Nat → List (Nat × Nat) → List Nat → Option (Bool × List (Nat × Nat))
  | 0, _, _, _ => none
  | fuel + 1, node, bs, chain =>
    let nd := g node
    if nd.isSelfAccepting then
      match cssImporterLoop g (propagateFuel g fuel) nd.importers (bs ++ [(node, node)]) chain with
      | none => none
      | some bs' => some (false, bs')
    else if nd.importers = [] then
      some (true, bs)
    else if !(isCSSRequest nd.url) && nd.importers.all (fun i => isCSSRequest (g i).url) then
      some (true, bs)
    else
      importerLoop g (propagateFuel g fuel) node nd.importers bs chain

/-- `propagateUpdate(mod, boundaries)` as called from `updateModules`: empty boundary set,
initial chain `[mod]`. -/
def propagateUpdate (g : Nat → NodeData) (fuel node : Nat) :
    Option (Bool × List (Nat × Nat)) :=
  propagateFuel g fuel node [] [node]

/-- One entry of an `update` payload (`{type, timestamp, path, acceptedPath}`). -/
structure UpdateEntry where
  type : String
  timestamp : Nat
  path : String
  acceptedPath : String
deriving DecidableEq, Repr

/-- The payload `updateModules` ends up sending over the websocket. -/
inductive HMRPayload
  | fullReload
  | update (updates : List UpdateEntry)
deriving DecidableEq, Repr

/-- The `for (const mod of modules)` loop of `updateModules` (hmr.ts lines 166–194): state is
(heap, invalidated-set, needFullReload, updates). -/
def updateModulesLoop (fuel ts : Nat) :
    List Nat → (Nat → NodeData) → List Nat → Bool → List UpdateEntry →
    Option (Bool × List UpdateEntry × (Nat → NodeData))
  | [], g, _, nfr, ups => some (nfr, ups, g)
  | m :: rest, g, seen, nfr, ups =>
    match invalidateFuel ts fuel g m seen with
    | none => none
    | some (g', seen') =>
      if nfr then updateModulesLoop fuel ts rest g' seen' nfr ups
      else
        match propagateUpdate g' fuel m with
        | none => none
        | some (true, _) => updateModulesLoop fuel ts rest g' seen' true ups
        | some (false, bs) =>
          let newUps := bs.map fun b =>
            { type := (g' b.1).type ++ "-update", timestamp := ts,
              path := (g' b.1).url, acceptedPath := (g' b.2).url : UpdateEntry }
          updateModulesLoop fuel ts rest g' seen' nfr (ups ++ newUps)

/-- `updateModules` from hmr.ts (lines 152–217): runs the invalidation walk and boundary walk
for every affected module and aggregates either a single `full-reload` payload or a single
`update` payload. Returns the payload together with the mutated heap. -/
def updateModules (g : Nat → NodeData) (fuel : Nat) (mods : List Nat) (ts : Nat) :
    Option (HMRPayload × (Nat → NodeData)) :=
  (updateModulesLoop fuel ts mods g [] false []).map fun r =>
    (if r.1 then HMRPayload.fullReload else HMRPayload.update r.2.1, r.2.2)

/-! ## Module graph (`moduleGraph.ts`)

The graph keeps three indices over nodes. JS `Map`s are embedded as association lists where
`set` on a fresh key conses at the front (later bindings shadow; `ensureEntryFromUrl` only
inserts keys that are absent, so shadowing never occurs in its runs). The injected
`resolveId` plus the url normalization of `resolveUrl` (whose helpers live in `utils.ts`,
not under `src/`) are modelled as one deterministic function field `resolveUrlFn`, per the
spec's description of `resolveUrl`: it returns the normalized url, the resolved id and
optional meta. -/

structure GraphState where
  nodes : Nat → NodeData
  alloc : Nat
  urlToModuleMap : List (String × Nat)
  idToModuleMap : List (String × Nat)
  fileToModulesMap : List (String × List Nat)
  safeModulesPath : List String
  resolveUrlFn : String → String × String × Option String

/-- An empty module graph over a given resolver. -/
def emptyModuleGraph (resolve : String → String × String × Option String) : GraphState :=
  { nodes := fun _ => mkModuleNode ""
    alloc := 0
    urlToModuleMap := []
    idToModuleMap := []
    fileToModulesMap := []
    safeModulesPath := []
    resolveUrlFn := resolve }

/-- Association-list lookup (JS `Map.get`). -/
def mapGet (m : List (String × Nat)) (k : String) : Option Nat :=
  (m.find? (fun p => p.1 = k)).map (·.2)

/-- Lookup in the file index (JS `Map.get` on `fileToModulesMap`). -/
def fileMapGet (m : List (String × List Nat)) (k : String) : Option (List Nat) :=
  (m.find? (fun p => p.1 = k)).map (·.2)

/-- `Set.add` of a node into the file index entry for `file`, creating the entry when absent
(mirrors the get-or-create pattern of `ensureEntryFromUrl` / `createFileOnlyEntry`). -/
def fileMapAdd (m : List (String × List Nat)) (k : String) (n : Nat) :
    List (String × List Nat) :=
  match fileMapGet m k with
  | none => (k, [n]) :: m
  | some _ => m.map fun p => if p.1 = k then (p.1, insertOnce p.2 n) else p

/-- `ModuleGraph.getModuleByUrl`. -/
def getModuleByUrl (s : GraphState) (rawUrl : String) : Option Nat :=
  mapGet s.urlToModuleMap (s.resolveUrlFn rawUrl).1

/-- `ModuleGraph.getModulesByFile`. -/
def getModulesByFile (s : GraphState) (file : String) : Option (List Nat) :=
  fileMapGet s.fileToModulesMap file

/-- `ModuleGraph.ensureEntryFromUrl` (moduleGraph lines 198–224): return the node registered
for the resolved url, or create one and populate all three indices. -/
def ensureEntryFromUrl (s : GraphState) (rawUrl : String) : Nat × GraphState :=
  let r := s.resolveUrlFn rawUrl
  let url := r.1
  let resolvedId := r.2.1
  let meta := r.2.2
  match mapGet s.urlToModuleMap url with
  | some m => (m, s)
  | none =>
    let n := s.alloc
    let file := cleanUrl resolvedId
    let node := { mkModuleNode url with meta := meta, id := some resolvedId, file := some file }
    (n, { s with
            nodes := fun k => if k = n then node else s.nodes k
            alloc := n + 1
            urlToModuleMap := (url, n) :: s.urlToModuleMap
            idToModuleMap := (resolvedId, n) :: s.idToModuleMap
            fileToModulesMap := fileMapAdd s.fileToModulesMap file n })

/-- `ModuleGraph.createFileOnlyEntry` (moduleGraph lines 235–254): a node registered only in
the file index, with synthetic url `FS_PREFIX + file`. -/
def createFileOnlyEntry (s : GraphState) (file0 : String) : Nat × GraphState :=
  let file := normalizePath file0
  let url := FS_PREFIX ++ file
  let existing := (fileMapGet s.fileToModulesMap file).getD []
  match existing.find? (fun m => (s.nodes m).url = url || (s.nodes m).id = some file) with
  | some m => (m, s)
  | none =>
    let n := s.alloc
    let node := { mkModuleNode url with file := some file }
    (n, { s with
            nodes := fun k => if k = n then node else s.nodes k
            alloc := n + 1
            fileToModulesMap := fileMapAdd s.fileToModulesMap file n })

/-- An element of the `Set<string | ModuleNode>` arguments of `updateModuleInfo`. -/
inductive ModRef
  | url (u : String)
  | node (n : Nat)
deriving DecidableEq, Repr

/-- Resolve one `string | ModuleNode` argument as `updateModuleInfo` does: strings go through
`ensureEntryFromUrl`, nodes are used as-is. -/
def resolveRef (s : GraphState) : ModRef → Nat × GraphState
  | .url u => ensureEntryFromUrl s u
  | .node n => (n, s)

/-- One iteration of the `for (const imported of importedModules)` loop of
`updateModuleInfo`: resolve the dep, add the back-edge `dep.importers.add(mod)` and record
`nextImports.add(dep)` (which aliases `mod.importedModules`). -/
def addImportStep (m : Nat) (s : GraphState) (ref : ModRef) : GraphState :=
  let r := resolveRef s ref
  let dep := r.1
  let s := r.2
  let s := { s with nodes := setNode s.nodes dep fun nd => { nd with importers := insertOnce nd.importers m } }
  { s with nodes := setNode s.nodes m fun nd => { nd with importedModules := insertOnce nd.importedModules dep } }

/-- One iteration of the `prevImports.forEach` loop of `updateModuleInfo`: for a dep no
longer imported, delete the back-edge and, when its `importers` became empty, add it to the
`noLongerImported` set (created on first use, like the JS `undefined` initial value). -/
def dropImportStep (m : Nat) (nextImports : List Nat) (acc : GraphState × Option (List Nat))
    (dep : Nat) : GraphState × Option (List Nat) :=
  if dep ∈ nextImports then acc
  else
    let s := { acc.1 with nodes := setNode acc.1.nodes dep fun nd => { nd with importers := setDelete nd.importers m } }
    if (s.nodes dep).importers.isEmpty then
      (s, some (insertOnce (acc.2.getD []) dep))
    else (s, acc.2)

/-- One iteration of the accepted-deps loop of `updateModuleInfo`. -/
def addAcceptedStep (m : Nat) (s : GraphState) (ref : ModRef) : GraphState :=
  let r := resolveRef s ref
  let dep := r.1
  let s := r.2
  { s with nodes := setNode s.nodes m fun nd => { nd with acceptedHmrDeps := insertOnce nd.acceptedHmrDeps dep } }

/-- `ModuleGraph.updateModuleInfo` (moduleGraph lines 148–193). Returns the new state and the
set of importees whose `importers` became empty (`none` for JS `undefined`). -/
def updateModuleInfo (s : GraphState) (m : Nat) (importedModules acceptedModules : List ModRef)
    (isSelfAccepting : Bool) : GraphState × Option (List Nat) :=
  -- mod.isSelfAccepting = isSelfAccepting
  let s := { s with nodes := setNode s.nodes m fun nd => { nd with isSelfAccepting := isSelfAccepting } }
  -- const prevImports = mod.importedModules
  let prevImports := (s.nodes m).importedModules
  -- const nextImports = (mod.importedModules = new Set())
  let s := { s with nodes := setNode s.nodes m fun nd => { nd with importedModules := [] } }
  let s := importedModules.foldl (addImportStep m) s
  let nextImports := (s.nodes m).importedModules
  let r := prevImports.foldl (dropImportStep m nextImports) (s, none)
  let s := r.1
  let noLongerImported := r.2
  -- const deps = (mod.acceptedHmrDeps = new Set()); for (const accepted of acceptedModules) deps.add(dep)
  let s := { s with nodes := setNode s.nodes m fun nd => { nd with acceptedHmrDeps := [] } }
  let s := acceptedModules.foldl (addAcceptedStep m) s
  (s, noLongerImported)

/-- `invalidateSSRModule` (moduleGraph lines 45–52): clear `ssrModule` up the importer chain.
Fuel-truncated: on exhausted fuel the walk just stops (no claim depends on the tail of this
walk). -/
def invalidateSSRFuel : Nat → (Nat → NodeData) → Nat → List Nat → (Nat → NodeData) × List Nat
  | 0, g, _, seen => (g, seen)
  | fuel + 1, g, m, seen =>
    if m ∈ seen then (g, seen)
    else
      let seen' := m :: seen
      let g' := setNode g m fun nd => { nd with ssrModule := false }
      ((g' m).importers).foldl (fun acc imp => invalidateSSRFuel fuel acc.1 imp acc.2) (g', seen')

/-- `ModuleGraph.invalidateModule` (moduleGraph lines 119–124). -/
def invalidateModule (fuel : Nat) (g : Nat → NodeData) (m : Nat) (seen : List Nat) :
    (Nat → NodeData) × List Nat :=
  let g' := setNode g m fun nd => { nd with info := false, transformResult := none, ssrTransformResult := none }
  invalidateSSRFuel fuel g' m seen

/-- `ModuleGraph.onFileChange` (moduleGraph lines 106–114). -/
def onFileChange (fuel : Nat) (s : GraphState) (file : String) : GraphState :=
  match getModulesByFile s file with
  | none => s
  | some mods =>
    let r := mods.foldl (fun acc m => invalidateModule fuel acc.1 m acc.2) (s.nodes, [])
    { s with nodes := r.1 }

/-- `ModuleGraph.invalidateAll` (moduleGraph lines 129–134). -/
def invalidateAll (fuel : Nat) (s : GraphState) : GraphState :=
  let r := s.idToModuleMap.foldl (fun acc p => invalidateModule fuel acc.1 p.2 acc.2) (s.nodes, [])
  { s with nodes := r.1 }

/-- One operation of the module-graph interface, for stating invariants over operation
sequences. -/
inductive GraphOp
  | ensureEntry (u : String)
  | updateInfo (m : Nat) (imported accepted : List ModRef) (selfAccepting : Bool)
  | fileChange (file : String)
  | invalidateAllOp
  | fileOnlyEntry (file : String)

/-- Apply one graph operation. -/
def stepOp (fuel : Nat) (s : GraphState) : GraphOp → GraphState
  | .ensureEntry u => (ensureEntryFromUrl s u).2
  | .updateInfo m i a sa => (updateModuleInfo s m i a sa).1
  | .fileChange f => onFileChange fuel s f
  | .invalidateAllOp => invalidateAll fuel s
  | .fileOnlyEntry f => (createFileOnlyEntry s f).2

/-- Apply a sequence of graph operations. -/
def runOps (fuel : Nat) (s : GraphState) (ops : List GraphOp) : GraphState :=
  ops.foldl (stepOp fuel) s

/-! ## Transform pipeline (`transformRequest.ts`) -/

/-- The `{ssr?, html?}` options of `transformRequest`. -/
structure TransformOpts where
  ssr : Bool := false
  html : Bool := false
deriving DecidableEq, Repr

/-- The cache key of the in-flight request map (transformRequest.ts line 47). -/
def cacheKey (opts : TransformOpts) (url : String) : String :=
  (if opts.ssr then "ssr:" else if opts.html then "html:" else "") ++ url

/-- The `server._pendingRequests` map: cache key to in-flight computation, the computation
being represented by an opaque token; `nextToken` supplies fresh tokens. -/
structure PendingState where
  pending : List (String × Nat)
  nextToken : Nat
deriving DecidableEq, Repr

/-- `transformRequest` (transformRequest.ts lines 41–61), restricted to its request-dedup
discipline: return the in-flight computation for the key when one exists, otherwise start a
fresh computation and register it under the key. -/
def transformRequest (s : PendingState) (url : String) (opts : TransformOpts) :
    Nat × PendingState :=
  let key := cacheKey opts url
  match mapGet s.pending key with
  | some request => (request, s)
  | none =>
    (s.nextToken, { pending := (key, s.nextToken) :: s.pending, nextToken := s.nextToken + 1 })

/-- Completion of an in-flight computation: `request.then(done, done)` deletes the key from
the pending map on success (`outcome = true`) and on failure (`outcome = false`) alike. -/
def completePending (s : PendingState) (key : String) (outcome : Bool) : PendingState :=
  match outcome with
  | true => { s with pending := s.pending.filter (fun p => p.1 ≠ key) }
  | false => { s with pending := s.pending.filter (fun p => p.1 ≠ key) }

/-- The external collaborators of `doTransform`, modelled from the spec (their sources —
plugin container, `plugins/asset`, `middlewares/static`, `etag`, `ssrTransform`, the
timestamp-query stripper from `utils` — are not under `src/`): each is an arbitrary
deterministic function. -/
structure TransformEnv where
  resolveId : String → Option String
  pluginLoad : String → Option String
  fsRead : String → Option String
  fileServingAllowed : String → Bool
  checkPublicFile : String → Bool
  pluginTransform : String → Option String
  ssrTransformF : String → String
  makeEtag : String → String
  stripTimestampQuery : String → String

/-- The descriptive error thrown for a public-directory url that reaches the load fallback
with no code (transformRequest.ts lines 156–162). -/
def publicFileError (url resolvedId : String) : String :=
  "Failed to load url " ++ url ++ " (resolved id: " ++ resolvedId ++ "). " ++
  "This file is in /public and will be copied as-is during build without " ++
  "going through the plugin transforms, and therefore should not be " ++
  "imported from source code. It can only be referenced via HTML tags."

/-- `doTransform` (transformRequest.ts lines 70–218). Returns `Except` for a thrown error,
`ok none` for a null result (upstream 404), `ok (some r)` for a produced transform result,
together with the updated graph. -/
def doTransform (env : TransformEnv) (s : GraphState) (url0 : String) (opts : TransformOpts) :
    Except String (Option TransformResultM) × GraphState :=
  -- url = removeTimestampQuery(url)
  let url := env.stripTimestampQuery url0
  -- const module = await server.moduleGraph.getModuleByUrl(url, ssr)
  let module := getModuleByUrl s url
  -- const cached = module && (ssr ? module.ssrTransformResult : module.transformResult)
  let cached := module.bind fun m =>
    if opts.ssr then (s.nodes m).ssrTransformResult else (s.nodes m).transformResult
  match cached with
  | some r => (.ok (some r), s)
  | none =>
    -- const id = (await pluginContainer.resolveId(url))?.id || url
    let resolvedId := (env.resolveId url).getD url
    -- const file = cleanUrl(id)
    let file := cleanUrl resolvedId
    -- const loadResult = await pluginContainer.load(id)
    match env.pluginLoad resolvedId with
    | none =>
      -- if this is an html request and there is no load result, skip ahead to SPA fallback
      if opts.html && !(strEndsWith resolvedId ".html") then (.ok none, s)
      else
        -- try fallback loading it from fs as string, only if access is allowed (or ssr)
        let code := if opts.ssr || env.fileServingAllowed file then env.fsRead file else none
        match code with
        | none =>
          -- if (code == null): public-directory urls fail with a descriptive error
          if env.checkPublicFile url then (.error (publicFileError url resolvedId), s)
          else (.ok none, s)
        | some code0 => doTransformTail env s url opts code0
    | some code0 => doTransformTail env s url opts code0

where
  /-- The tail of `doTransform` after a successful load (lines 168–217): ensure the graph
  entry, run the transform chain, store and return the result with its weak etag (the
  source-map handling is not modelled; no claim mentions it). -/
  doTransformTail (env : TransformEnv) (s : GraphState) (url : String) (opts : TransformOpts)
      (code0 : String) : Except String (Option TransformResultM) × GraphState :=
    let r := ensureEntryFromUrl s url
    let m := r.1
    let s1 := r.2
    let code := (env.pluginTransform code0).getD code0
    if opts.ssr then
      let res : TransformResultM := { code := env.ssrTransformF code, etag := "" }
      (.ok (some res), { s1 with nodes := setNode s1.nodes m fun nd => { nd with ssrTransformResult := some res } })
    else
      let res : TransformResultM := { code := code, etag := env.makeEtag code }
      (.ok (some res), { s1 with nodes := setNode s1.nodes m fun nd => { nd with transformResult := some res } })

/-! ## Accept-dep lexer (`hmr.ts` lines 371–497)

`lexAcceptedHmrDeps(code, start, urls)` scans from `start` with a two-level state machine,
records every string-literal dep as `{url, start, end}` and returns whether the module is
self-accepting. Thrown lexer errors become `Except.error` carrying the error position. -/

/-- A recorded accepted dep: the literal and its source span (`end` is a Lean keyword, hence
`endIdx`). -/
structure HotDep where
  url : String
  start : Nat
  endIdx : Nat
deriving DecidableEq, Repr

/-- The lexer states of `LexerState` in hmr.ts. -/
inductive LexerState
  | inCall
  | inSingleQuoteString
  | inDoubleQuoteString
  | inTemplateString
  | inArray
deriving DecidableEq, Repr

/-- `addDep(index)`: record `{url: currentDep, start: index - currentDep.length - 1,
end: index + 1}`. -/
def addDep (urls : List HotDep) (currentDep : String) (index : Nat) : List HotDep :=
  urls ++ [{ url := currentDep, start := index - currentDep.length - 1, endIdx := index + 1 }]

/-- The scanning loop of `lexAcceptedHmrDeps`, over the remaining characters: arguments are
the characters from position `i` on, the position `i`, `state`, `prevState`, `currentDep`
and the accumulated `urls`. Falling off the end of the input returns `(false, urls)` like
the source's final `return false`. -/
def lexLoop : List Char → Nat → LexerState → LexerState → String → List HotDep →
    Except Nat (Bool × List HotDep)
  | [], _, _, _, _, urls => .ok (false, urls)
  | c :: rest, i, state, prevState, currentDep, urls =>
    match state with
    | .inCall | .inArray =>
      if c = singleQuoteChar then
        lexLoop rest (i + 1) .inSingleQuoteString state currentDep urls
      else if c = doubleQuoteChar then
        lexLoop rest (i + 1) .inDoubleQuoteString state currentDep urls
      else if c = backtickChar then
        lexLoop rest (i + 1) .inTemplateString state currentDep urls
      else if isJsWhitespace c then
        lexLoop rest (i + 1) state prevState currentDep urls
      else if state = .inCall then
        if c = '[' then
          lexLoop rest (i + 1) .inArray prevState currentDep urls
        else
          -- the first arg is neither a string literal nor an Array literal:
          -- a self-accepting module
          .ok (true, urls)
      else
        if c = ']' then .ok (false, urls)
        else if c = ',' then lexLoop rest (i + 1) state prevState currentDep urls
        else .error i
    | .inSingleQuoteString =>
      if c = singleQuoteChar then
        let urls' := addDep urls currentDep i
        if prevState = .inCall then .ok (false, urls')
        else lexLoop rest (i + 1) prevState prevState "" urls'
      else lexLoop rest (i + 1) state prevState (currentDep.push c) urls
    | .inDoubleQuoteString =>
      if c = doubleQuoteChar then
        let urls' := addDep urls currentDep i
        if prevState = .inCall then .ok (false, urls')
        else lexLoop rest (i + 1) prevState prevState "" urls'
      else lexLoop rest (i + 1) state prevState (currentDep.push c) urls
    | .inTemplateString =>
      if c = backtickChar then
        let urls' := addDep urls currentDep i
        if prevState = .inCall then .ok (false, urls')
        else lexLoop rest (i + 1) prevState prevState "" urls'
      else if c = '$' && rest.head? = some openBraceChar then
        .error i
      else lexLoop rest (i + 1) state prevState (currentDep.push c) urls

/-- `lexAcceptedHmrDeps(code, start, urls)` with `urls` initially empty: returns
`(selfAccepts, urls)` on normal return, `Except.error pos` for a thrown lexer error. -/
def lexAcceptedHmrDeps (code : String) (start : Nat) : Except Nat (Bool × List HotDep) :=
  lexLoop (code.data.drop start) start .inCall .inCall "" []

/-! # Settling the claims

## C1 / C2: the two-module change scenarios -/

/-- The two-node scenario graph of spec §8: node `0` is `A` (imports `B`), node `1` is `B`.
`aAccepts` states whether `A` declared `B` in its accepted HMR deps; `bSelf` whether `B` is
self-accepting; `rA`/`rB` are the cached transform results. -/
def scenarioGraph (aAccepts bSelf : Bool) (rA rB : Option TransformResultM) :
    Nat → NodeData :=
  fun k =>
    if k = 0 then
      { url := "/A", type := "js", importedModules := [1],
        acceptedHmrDeps := if aAccepts then [1] else [],
        transformResult := rA }
    else if k = 1 then
      { url := "/B", type := "js", importers := [0],
        isSelfAccepting := bSelf, transformResult := rB }
    else mkModuleNode ""

/-- Claim C1, counterexample. In the self-accepting-leaf scenario (`A` imports `B`, `B`
self-accepting, `A` does not accept `B`), handling a change to `B` DOES clear `A`'s cached
`transformResult`: starting from a graph where `A` holds a cached result, `updateModules`
leaves `A`'s `transformResult` as `null`. This refutes the claim's final conjunct ("A's
cached transform_result is NOT cleared by the invalidation walk"). -/
theorem c1_invalidation_counterexample :
    (scenarioGraph false true (some ⟨"codeA", "etagA"⟩) (some ⟨"codeB", "etagB"⟩) 0).transformResult
        = some ⟨"codeA", "etagA"⟩ ∧
    (updateModules (scenarioGraph false true (some ⟨"codeA", "etagA"⟩) (some ⟨"codeB", "etagB"⟩)) 5 [1] 7).map
        (fun r => (r.2 0).transformResult)
      = some none := by
  decide

/-- Claim C1 (amended): for the self-accepting-leaf scenario (`A` imports `B`, `B`
self-accepting and not a CSS request, `A` does not declare `B` among its accepted deps),
handling a change to `B` emits a single `update` payload with exactly one `js-update` entry
whose `path` and `acceptedPath` are both `B`'s url — and the invalidation walk clears the
cached `transformResult` of BOTH `B` and its importer `A` (since `A` does not accept `B`),
amending the claim's assertion that `A`'s cache is kept. -/
theorem c1_self_accepting_leaf_amended (rA rB : Option TransformResultM) (ts : Nat) :
    (updateModules (scenarioGraph false true rA rB) 5 [1] ts).map
        (fun r => (r.1, (r.2 0).transformResult, (r.2 1).transformResult))
      = some (HMRPayload.update
          [{ type := "js-update", timestamp := ts, path := "/B", acceptedPath := "/B" }],
          none, none) := by
  rfl

/-- Claim C2, counterexample. In the dep-accepting-parent scenario (`A` imports `B` and
declares it via `hot.accept("/B", cb)`, `B` not self-accepting), handling a change to `B`
does NOT invalidate `A`'s cached `transformResult`: the invalidation walk stops at
an importer that accepts the changed module, so `A` keeps its cached result. This refutes the
claim's conjunct "BOTH A's and B's cached transform_results are invalidated". -/
theorem c2_invalidation_counterexample :
    (updateModules (scenarioGraph true false (some ⟨"codeA", "etagA"⟩) (some ⟨"codeB", "etagB"⟩)) 5 [1] 7).map
        (fun r => (r.2 0).transformResult)
      = some (some ⟨"codeA", "etagA"⟩) := by
  decide

/-- Claim C2 (amended): for the dep-accepting-parent scenario (`A` imports `B`, `A` declares
`B` in its accepted HMR deps, `B` not self-accepting), handling a change to `B` emits one
update entry with `path = /A` and `acceptedPath = /B`, and the invalidation walk clears
ONLY `B`'s cached `transformResult`, leaving `A`'s untouched (the walk stops at importers
that accept the changed module) — amending the claim's assertion that both caches are
invalidated. -/
theorem c2_dep_accepting_parent_amended (rA rB : Option TransformResultM) (ts : Nat) :
    (updateModules (scenarioGraph true false rA rB) 5 [1] ts).map
        (fun r => (r.1, (r.2 0).transformResult, (r.2 1).transformResult))
      = some (HMRPayload.update
          [{ type := "js-update", timestamp := ts, path := "/A", acceptedPath := "/B" }],
          rA, none) := by
  rfl

/-! ## C4: request deduplication of the transform pipeline -/

/-- Claim C4: request deduplication of `transformRequest` (transformRequest.ts 41–61).
(1) The cache key is the url prefixed with `ssr:` when `options.ssr` is set, else `html:`
when `options.html` is set, else unprefixed. (2) While a computation for that key is in
flight, a concurrent call with the same key returns the identical pending computation and
starts no second computation (the pending state is unchanged). (3) A fresh call registers
its computation under the key. (4) On completion the pending entry for the key is removed,
for success and failure alike. -/
theorem c4_transform_request_dedup :
    (∀ url : String,
        cacheKey { ssr := true, html := false } url = "ssr:" ++ url ∧
        cacheKey { ssr := true, html := true } url = "ssr:" ++ url ∧
        cacheKey { ssr := false, html := true } url = "html:" ++ url ∧
        cacheKey { ssr := false, html := false } url = url) ∧
    (∀ (s : PendingState) (url : String) (opts : TransformOpts) (t : Nat),
        mapGet s.pending (cacheKey opts url) = some t →
        transformRequest s url opts = (t, s)) ∧
    (∀ (s : PendingState) (url : String) (opts : TransformOpts),
        mapGet s.pending (cacheKey opts url) = none →
        mapGet (transformRequest s url opts).2.pending (cacheKey opts url)
          = some (transformRequest s url opts).1) ∧
    (∀ (s : PendingState) (key : String) (outcome : Bool),
        mapGet (completePending s key outcome).pending key = none) := by
  refine ⟨fun url => ⟨rfl, rfl, rfl, by simp [cacheKey]⟩, ?_, ?_, ?_⟩
  · intro s url opts t h
    simp [transformRequest, h]
  · intro s url opts h
    unfold transformRequest
    simp only []
    rw [h]
    simp [mapGet, List.find?]
  · intro s key outcome
    have h : ∀ ps : List (String × Nat),
        mapGet (ps.filter (fun p => p.1 ≠ key)) key = none := by
      intro ps
      induction ps with
      | nil => rfl
      | cons p rest ih =>
        by_cases hk : p.1 = key
        · simpa only [List.filter_cons, hk, ne_eq, not_true_eq_false, decide_False] using ih
        · simp [mapGet, List.filter_cons, hk, List.find?]
    cases outcome <;> exact h s.pending

/-- Witness for C4 at a concrete state: key `"ssr:/a"` in flight as token 3 is returned
as-is; completion clears it. -/
theorem c4_transform_request_dedup_witness :
    transformRequest ⟨[("ssr:/a", 3)], 4⟩ "/a" { ssr := true, html := false } = (3, ⟨[("ssr:/a", 3)], 4⟩) ∧
    mapGet (completePending ⟨[("ssr:/a", 3)], 4⟩ "ssr:/a" false).pending "ssr:/a" = none := by
  exact ⟨c4_transform_request_dedup.2.1 ⟨[("ssr:/a", 3)], 4⟩ "/a" { ssr := true, html := false } 3 (by decide),
         c4_transform_request_dedup.2.2.2 ⟨[("ssr:/a", 3)], 4⟩ "ssr:/a" false⟩

/-! ## C9: idempotence of `ensureEntryFromUrl` -/

/-- Looking up the key just inserted at the front of an association list. -/
theorem mapGet_cons_self (m : List (String × Nat)) (k : String) (v : Nat) :
    mapGet ((k, v) :: m) k = some v := by
  simp [mapGet, List.find?]

/-- `fileMapAdd` rewrites only the entry of its key: lookup of the key after the add. -/
theorem fileMapGet_fileMapAdd_map (m : List (String × List Nat)) (k : String) (n : Nat) :
    fileMapGet (m.map fun p => if p.1 = k then (p.1, insertOnce p.2 n) else p) k
      = (fileMapGet m k).map (fun l => insertOnce l n) := by
  induction m with
  | nil => rfl
  | cons p rest ih =>
    by_cases hk : p.1 = k
    · simp [fileMapGet, List.find?, hk]
    · simpa [fileMapGet, List.find?, hk] using ih

/-- The element handed to `fileMapAdd` is in the file-index entry afterwards. -/
theorem fileMapAdd_mem (m : List (String × List Nat)) (k : String) (n : Nat) :
    n ∈ (fileMapGet (fileMapAdd m k n) k).getD [] := by
  unfold fileMapAdd
  cases h : fileMapGet m k with
  | none => simp [fileMapGet, List.find?, insertOnce]
  | some l =>
    rw [fileMapGet_fileMapAdd_map, h]
    simp only [Option.map_some', Option.getD_some, insertOnce]
    split
    · assumption
    · simp

/-- Claim C9: `ensureEntryFromUrl` is idempotent. A second call with the same url (the
resolution function being a deterministic field of the state) returns the very same node and
leaves the whole graph state — in particular all three indices — unchanged; and a first call
on an unregistered url inserts the created node into `urlToModuleMap` (under the resolved
url), `idToModuleMap` (under the resolved id) and `fileToModulesMap` (under the cleaned
file). -/
theorem c9_ensure_entry_idempotent :
    (∀ (s : GraphState) (url : String),
        ensureEntryFromUrl (ensureEntryFromUrl s url).2 url = ensureEntryFromUrl s url) ∧
    (∀ (s : GraphState) (url : String),
        mapGet s.urlToModuleMap (s.resolveUrlFn url).1 = none →
        mapGet (ensureEntryFromUrl s url).2.urlToModuleMap (s.resolveUrlFn url).1
            = some (ensureEntryFromUrl s url).1 ∧
        mapGet (ensureEntryFromUrl s url).2.idToModuleMap (s.resolveUrlFn url).2.1
            = some (ensureEntryFromUrl s url).1 ∧
        (ensureEntryFromUrl s url).1 ∈
            (fileMapGet (ensureEntryFromUrl s url).2.fileToModulesMap
              (cleanUrl (s.resolveUrlFn url).2.1)).getD []) := by
  constructor
  · intro s url
    unfold ensureEntryFromUrl
    cases h : mapGet s.urlToModuleMap (s.resolveUrlFn url).1 with
    | some m => simp [h]
    | none => simp [h, mapGet_cons_self]
  · intro s url h
    unfold ensureEntryFromUrl
    simp only [h]
    exact ⟨mapGet_cons_self _ _ _, mapGet_cons_self _ _ _, fileMapAdd_mem _ _ _⟩

/-- Witness for C9: concrete graph with identity-style resolution; the second call returns
the node created by the first, and the first call registered it in all three indices. -/
theorem c9_ensure_entry_idempotent_witness :
    (ensureEntryFromUrl (ensureEntryFromUrl (emptyModuleGraph fun u => (u, u, none)) "/a").2 "/a"
        = ensureEntryFromUrl (emptyModuleGraph fun u => (u, u, none)) "/a") ∧
    mapGet (ensureEntryFromUrl (emptyModuleGraph fun u => (u, u, none)) "/a").2.urlToModuleMap "/a"
        = some (ensureEntryFromUrl (emptyModuleGraph fun u => (u, u, none)) "/a").1 := by
  refine ⟨c9_ensure_entry_idempotent.1 _ "/a", ?_⟩
  have h := (c9_ensure_entry_idempotent.2 (emptyModuleGraph fun u => (u, u, none)) "/a" (by rfl)).1
  exact h

/-! ## C8: the load-failure / public-directory path of `doTransform` -/

/-- An environment with constant collaborator answers, for concrete C8 runs. -/
def constTransformEnv (loadR fsR : Option String) (publicB allowB : Bool) : TransformEnv :=
  { resolveId := fun _ => none
    pluginLoad := fun _ => loadR
    fsRead := fun _ => fsR
    fileServingAllowed := fun _ => allowB
    checkPublicFile := fun _ => publicB
    pluginTransform := fun _ => none
    ssrTransformF := fun c => c
    makeEtag := fun _ => ""
    stripTimestampQuery := fun u => u }

/-- Claim C8, counterexample. When `options.html` is set and the resolved id does not end in
`.html`, `doTransform` returns null BEFORE the public-directory check: for a url inside the
public directory (the public predicate answers true), with a null load result and no
filesystem code, the transform returns `null` instead of throwing — refuting "it never
returns null for a public-directory url". -/
theorem c8_public_html_counterexample :
    (doTransform (constTransformEnv none none true true)
        (emptyModuleGraph fun u => (u, u, none)) "/foo.js" { ssr := false, html := true }).1
      = .ok none ∧
    (constTransformEnv none none true true).checkPublicFile "/foo.js" = true ∧
    (constTransformEnv none none true true).pluginLoad "/foo.js" = none ∧
    (constTransformEnv none none true true).fsRead "/foo.js" = none := by
  exact ⟨rfl, rfl, rfl, rfl⟩

/-- Claim C8 (amended): in the transform pipeline, when there is no cached result, the plugin
load hook returns null and the filesystem fallback yields no code — and except when
`options.html` is set with a resolved id not ending in `.html` (in which case null is
returned before the public check) — the transform throws the descriptive public-directory
error exactly when the url lies in the public directory, and returns null otherwise; the
graph state is unchanged. -/
theorem c8_public_dir_error_amended (env : TransformEnv) (s : GraphState) (url : String)
    (opts : TransformOpts)
    (hcache : (getModuleByUrl s (env.stripTimestampQuery url)).bind
        (fun m => if opts.ssr then (s.nodes m).ssrTransformResult else (s.nodes m).transformResult)
        = none)
    (hload : env.pluginLoad
        ((env.resolveId (env.stripTimestampQuery url)).getD (env.stripTimestampQuery url)) = none)
    (hfs : env.fsRead (cleanUrl
        ((env.resolveId (env.stripTimestampQuery url)).getD (env.stripTimestampQuery url))) = none)
    (hhtml : ¬(opts.html = true ∧ strEndsWith
        ((env.resolveId (env.stripTimestampQuery url)).getD (env.stripTimestampQuery url))
        ".html" = false)) :
    doTransform env s url opts =
      (if env.checkPublicFile (env.stripTimestampQuery url)
       then .error (publicFileError (env.stripTimestampQuery url)
              ((env.resolveId (env.stripTimestampQuery url)).getD (env.stripTimestampQuery url)))
       else .ok none, s) := by
  have hb : (opts.html && !(strEndsWith
      ((env.resolveId (env.stripTimestampQuery url)).getD (env.stripTimestampQuery url))
      ".html")) = false := by
    cases h1 : opts.html <;>
      cases h2 : strEndsWith
        ((env.resolveId (env.stripTimestampQuery url)).getD (env.stripTimestampQuery url))
        ".html" <;> simp_all
  have hcode : (if opts.ssr || env.fileServingAllowed (cleanUrl
      ((env.resolveId (env.stripTimestampQuery url)).getD (env.stripTimestampQuery url)))
      then env.fsRead (cleanUrl
        ((env.resolveId (env.stripTimestampQuery url)).getD (env.stripTimestampQuery url)))
      else none) = none := by
    split
    · exact hfs
    · rfl
  unfold doTransform
  simp only []
  rw [hcache, hload, hb, hcode]
  simp only [Bool.false_eq_true, if_false]
  split <;> rfl

/-- Witness for C8 (amended) at a concrete public-directory url: the transform fails with
the descriptive error. -/
theorem c8_public_dir_error_witness :
    doTransform (constTransformEnv none none true true)
        (emptyModuleGraph fun u => (u, u, none)) "/foo.js" { ssr := false, html := false }
      = (.error (publicFileError "/foo.js" "/foo.js"),
         emptyModuleGraph fun u => (u, u, none)) := by
  have h := c8_public_dir_error_amended (constTransformEnv none none true true)
    (emptyModuleGraph fun u => (u, u, none)) "/foo.js" { ssr := false, html := false }
    rfl rfl rfl (by simp [constTransformEnv, strEndsWith])
  simpa using h

/-! ## C3: postconditions of `updateModuleInfo` -/

theorem mem_insertOnce (l : List Nat) (d x : Nat) : x ∈ insertOnce l d ↔ x ∈ l ∨ x = d := by
  unfold insertOnce
  split <;> rename_i hd
  · constructor
    · exact fun h => Or.inl h
    · rintro (h | rfl)
      · exact h
      · exact hd
  · simp [List.mem_append]

theorem insertOnce_idem (l : List Nat) (d : Nat) :
    insertOnce (insertOnce l d) d = insertOnce l d := by
  unfold insertOnce
  split <;> rename_i hd
  · simp [hd]
  · simp

theorem mem_foldl_insertOnce (I l : List Nat) (x : Nat) :
    x ∈ I.foldl insertOnce l ↔ x ∈ l ∨ x ∈ I := by
  induction I generalizing l with
  | nil => simp
  | cons d rest ih =>
    rw [List.foldl_cons, ih, mem_insertOnce]
    simp only [List.mem_cons]
    tauto

theorem setDelete_idem (l : List Nat) (m : Nat) :
    setDelete (setDelete l m) m = setDelete l m := by
  simp [setDelete, List.filter_filter]

theorem not_mem_setDelete (l : List Nat) (m : Nat) : m ∉ setDelete l m := by
  simp [setDelete]

/-- Field characterization of one import step with a node argument. -/
theorem addImportStep_node_nodes (m : Nat) (s : GraphState) (d k : Nat) :
    (addImportStep m s (.node d)).nodes k =
      { s.nodes k with
        importers := if k = d then insertOnce ((s.nodes k).importers) m else (s.nodes k).importers,
        importedModules := if k = m then insertOnce ((s.nodes m).importedModules) d
                           else (s.nodes k).importedModules } := by
  simp only [addImportStep, resolveRef, setNode]
  by_cases hk : k = m <;> by_cases hd : k = d <;> subst_eqs <;> simp [*]

theorem addAcceptedStep_node_nodes (m : Nat) (s : GraphState) (d k : Nat) :
    (addAcceptedStep m s (.node d)).nodes k =
      { s.nodes k with
        acceptedHmrDeps := if k = m then insertOnce ((s.nodes m).acceptedHmrDeps) d
                           else (s.nodes k).acceptedHmrDeps } := by
  simp only [addAcceptedStep, resolveRef, setNode]
  by_cases hk : k = m <;> subst_eqs <;> simp [*]

/-- Import fold: `importedModules` of `m` accumulates the deps via `insertOnce`. -/
theorem importFold_importedModules (m : Nat) (I : List Nat) :
    ∀ s : GraphState,
      (((I.map ModRef.node).foldl (addImportStep m) s).nodes m).importedModules
        = I.foldl insertOnce ((s.nodes m).importedModules) := by
  induction I with
  | nil => intro s; rfl
  | cons d rest ih =>
    intro s
    rw [List.map_cons, List.foldl_cons, List.foldl_cons, ih]
    rw [addImportStep_node_nodes]
    simp

/-- Import fold: `importers` of every node gains `m` exactly for the imported deps. -/
theorem importFold_importers (m : Nat) (I : List Nat) :
    ∀ (s : GraphState) (k : Nat),
      (((I.map ModRef.node).foldl (addImportStep m) s).nodes k).importers
        = if k ∈ I then insertOnce ((s.nodes k).importers) m else (s.nodes k).importers := by
  induction I with
  | nil => intro s k; simp
  | cons d rest ih =>
    intro s k
    rw [List.map_cons, List.foldl_cons, ih, addImportStep_node_nodes]
    by_cases hk : k = d
    · subst hk
      by_cases hr : k ∈ rest <;> simp [hr, insertOnce_idem]
    · by_cases hr : k ∈ rest <;> simp [hr, hk, List.mem_cons]

/-- Import fold: the remaining node fields are untouched. -/
theorem importFold_other_fields (m : Nat) (I : List Nat) :
    ∀ (s : GraphState) (k : Nat),
      ((((I.map ModRef.node).foldl (addImportStep m) s).nodes k).acceptedHmrDeps
          = (s.nodes k).acceptedHmrDeps) ∧
      ((((I.map ModRef.node).foldl (addImportStep m) s).nodes k).isSelfAccepting
          = (s.nodes k).isSelfAccepting) ∧
      (k ≠ m → (((I.map ModRef.node).foldl (addImportStep m) s).nodes k).importedModules
          = (s.nodes k).importedModules) := by
  induction I with
  | nil => intro s k; exact ⟨rfl, rfl, fun _ => rfl⟩
  | cons d rest ih =>
    intro s k
    rw [List.map_cons, List.foldl_cons]
    refine ⟨?_, ?_, ?_⟩
    · rw [(ih _ k).1, addImportStep_node_nodes]
    · rw [(ih _ k).2.1, addImportStep_node_nodes]
    · intro hk
      rw [(ih _ k).2.2 hk, addImportStep_node_nodes]
      simp [hk]

/-- Accepted fold: `acceptedHmrDeps` of `m` accumulates the deps; everything else is
untouched. -/
theorem acceptedFold_nodes (m : Nat) (A : List Nat) :
    ∀ (s : GraphState) (k : Nat),
      ((A.map ModRef.node).foldl (addAcceptedStep m) s).nodes k
        = { s.nodes k with
            acceptedHmrDeps := if k = m then A.foldl insertOnce ((s.nodes m).acceptedHmrDeps)
                               else (s.nodes k).acceptedHmrDeps } := by
  induction A with
  | nil =>
    intro s k
    by_cases hk : k = m <;> simp [hk]
  | cons d rest ih =>
    intro s k
    rw [List.map_cons, List.foldl_cons, ih, addAcceptedStep_node_nodes]
    by_cases hk : k = m <;> simp [hk, addAcceptedStep_node_nodes]

/-- One drop step: state component, field characterization. -/
theorem dropImportStep_nodes (m : Nat) (next : List Nat) (acc : GraphState × Option (List Nat))
    (dep k : Nat) :
    (dropImportStep m next acc dep).1.nodes k =
      { acc.1.nodes k with
        importers := if dep ∉ next ∧ k = dep then setDelete ((acc.1.nodes k).importers) m
                     else (acc.1.nodes k).importers } := by
  unfold dropImportStep
  by_cases hd : dep ∈ next
  · simp [hd]
  · rw [if_neg hd]
    by_cases hc : dep ∉ next ∧ k = dep
    · rw [if_pos hc]
      obtain ⟨-, hk⟩ := hc
      subst hk
      simp only [apply_ite (fun p : GraphState × Option (List Nat) => p.1.nodes k), ite_self]
      simp [setNode]
    · rw [if_neg hc]
      have hk : k ≠ dep := fun h => hc ⟨hd, h⟩
      simp only [apply_ite (fun p : GraphState × Option (List Nat) => p.1.nodes k), ite_self]
      simp [setNode, hk]

/-- Drop fold: state component over the whole `prevImports` loop. -/
theorem dropFold_nodes (m : Nat) (next prev : List Nat) :
    ∀ (sacc : GraphState × Option (List Nat)) (k : Nat),
      (prev.foldl (dropImportStep m next) sacc).1.nodes k =
        { sacc.1.nodes k with
          importers := if k ∈ prev ∧ k ∉ next then setDelete ((sacc.1.nodes k).importers) m
                       else (sacc.1.nodes k).importers } := by
  induction prev with
  | nil =>
    intro sacc k
    simp
  | cons dep rest ih =>
    intro sacc k
    rw [List.foldl_cons, ih, dropImportStep_nodes]
    by_cases hk : k = dep
    · subst hk
      by_cases hn : k ∈ next <;> by_cases hr : k ∈ rest <;>
        simp [hn, hr, setDelete_idem, List.mem_cons]
    · by_cases hn : k ∈ next <;> by_cases hr : k ∈ rest <;>
        simp [hn, hr, hk, List.mem_cons]

/-- Drop fold: characterization of the `noLongerImported` accumulator. An importee ends up
in the returned set exactly when it was previously imported, is no longer imported, and
its importers list became empty at its check (equivalently: deleting `m` from its importers at
loop entry leaves the empty list); the accumulator stays `none` exactly when no importee
qualifies. -/
theorem dropFold_ret (m : Nat) (next : List Nat) (prev : List Nat) :
    ∀ (s : GraphState) (acc : Option (List Nat)),
      (∀ x, x ∈ ((prev.foldl (dropImportStep m next) (s, acc)).2.getD []) ↔
          x ∈ acc.getD [] ∨ (x ∈ prev ∧ x ∉ next ∧ setDelete ((s.nodes x).importers) m = [])) ∧
      ((prev.foldl (dropImportStep m next) (s, acc)).2 = none ↔
          acc = none ∧ ∀ x ∈ prev, x ∉ next → setDelete ((s.nodes x).importers) m ≠ []) := by
  induction prev with
  | nil =>
    intro s acc
    simp
  | cons dep rest ih =>
    intro s acc
    rw [List.foldl_cons]
    have hnodes : ∀ x, setDelete (((dropImportStep m next (s, acc) dep).1.nodes x).importers) m
        = setDelete ((s.nodes x).importers) m := by
      intro x
      rw [dropImportStep_nodes]
      split
      · exact setDelete_idem _ _
      · rfl
    by_cases hd : dep ∈ next
    · have hstep : dropImportStep m next (s, acc) dep = (s, acc) := by
        unfold dropImportStep
        rw [if_pos hd]
      rw [hstep]
      obtain ⟨ihm, ihn⟩ := ih s acc
      refine ⟨fun x => ?_, ?_⟩
      · rw [ihm]
        constructor
        · rintro (h | h)
          · exact Or.inl h
          · exact Or.inr ⟨List.mem_cons_of_mem _ h.1, h.2⟩
        · rintro (h | ⟨hmem, hnn, hdel⟩)
          · exact Or.inl h
          · rcases List.mem_cons.1 hmem with rfl | hmem'
            · exact absurd hd hnn
            · exact Or.inr ⟨hmem', hnn, hdel⟩
      · rw [ihn]
        constructor
        · rintro ⟨h1, h2⟩
          refine ⟨h1, fun x hx hnn => ?_⟩
          rcases List.mem_cons.1 hx with rfl | hx'
          · exact absurd hd hnn
          · exact h2 x hx' hnn
        · rintro ⟨h1, h2⟩
          exact ⟨h1, fun x hx hnn => h2 x (List.mem_cons_of_mem _ hx) hnn⟩
    · have hs1 : (dropImportStep m next (s, acc) dep).1.nodes dep
          = { s.nodes dep with importers := setDelete ((s.nodes dep).importers) m } := by
        rw [dropImportStep_nodes]
        rw [if_pos ⟨hd, rfl⟩]
      by_cases hemp : setDelete ((s.nodes dep).importers) m = []
      · have hstep : dropImportStep m next (s, acc) dep
            = ((dropImportStep m next (s, acc) dep).1, some (insertOnce (acc.getD []) dep)) := by
          unfold dropImportStep
          rw [if_neg hd]
          simp only []
          rw [if_pos]
          simp [setNode, setDelete, hemp]
          simpa [setNode, setDelete] using hemp
        obtain ⟨ihm, ihn⟩ := ih (dropImportStep m next (s, acc) dep).1
          (some (insertOnce (acc.getD []) dep))
        rw [hstep] at ihm ihn ⊢
        refine ⟨fun x => ?_, ?_⟩
        · rw [ihm x]
          simp only [Option.getD_some, mem_insertOnce, hnodes]
          constructor
          · rintro ((h | rfl) | h)
            · exact Or.inl h
            · exact Or.inr ⟨List.mem_cons_self _ _, hd, hemp⟩
            · exact Or.inr ⟨List.mem_cons_of_mem _ h.1, h.2⟩
          · rintro (h | ⟨hmem, hnn, hdel⟩)
            · exact Or.inl (Or.inl h)
            · rcases List.mem_cons.1 hmem with rfl | hmem'
              · exact Or.inl (Or.inr rfl)
              · exact Or.inr ⟨hmem', hnn, hdel⟩
        · rw [ihn]
          constructor
          · rintro ⟨h1, -⟩
            exact absurd h1 (by simp)
          · rintro ⟨-, h2⟩
            exact absurd hemp (h2 dep (List.mem_cons_self _ _) hd)
      · have hstep : dropImportStep m next (s, acc) dep
            = ((dropImportStep m next (s, acc) dep).1, acc) := by
          unfold dropImportStep
          rw [if_neg hd]
          simp only []
          rw [if_neg]
          simp [setNode, setDelete]
          simpa [setNode, setDelete] using hemp
        obtain ⟨ihm, ihn⟩ := ih (dropImportStep m next (s, acc) dep).1 acc
        rw [hstep] at ihm ihn ⊢
        refine ⟨fun x => ?_, ?_⟩
        · rw [ihm x]
          simp only [hnodes]
          constructor
          · rintro (h | h)
            · exact Or.inl h
            · exact Or.inr ⟨List.mem_cons_of_mem _ h.1, h.2⟩
          · rintro (h | ⟨hmem, hnn, hdel⟩)
            · exact Or.inl h
            · rcases List.mem_cons.1 hmem with rfl | hmem'
              · exact absurd hdel hemp
              · exact Or.inr ⟨hmem', hnn, hdel⟩
        · rw [ihn]
          simp only [hnodes]
          constructor
          · rintro ⟨h1, h2⟩
            refine ⟨h1, fun x hx hnn => ?_⟩
            rcases List.mem_cons.1 hx with rfl | hx'
            · exact hemp
            · exact h2 x hx' hnn
          · rintro ⟨h1, h2⟩
            exact ⟨h1, fun x hx hnn => h2 x (List.mem_cons_of_mem _ hx) hnn⟩

theorem importFold_accepted (m : Nat) (I : List Nat) (s : GraphState) (k : Nat) :
    (((I.map ModRef.node).foldl (addImportStep m) s).nodes k).acceptedHmrDeps
      = (s.nodes k).acceptedHmrDeps :=
  (importFold_other_fields m I s k).1

theorem importFold_selfAccepting (m : Nat) (I : List Nat) (s : GraphState) (k : Nat) :
    (((I.map ModRef.node).foldl (addImportStep m) s).nodes k).isSelfAccepting
      = (s.nodes k).isSelfAccepting :=
  (importFold_other_fields m I s k).2.1

theorem importFold_importedModules_ne (m : Nat) (I : List Nat) (s : GraphState) (k : Nat)
    (hk : k ≠ m) :
    (((I.map ModRef.node).foldl (addImportStep m) s).nodes k).importedModules
      = (s.nodes k).importedModules :=
  (importFold_other_fields m I s k).2.2 hk

/-- `updateModuleInfo` (node arguments): `isSelfAccepting` afterwards. -/
theorem umi_isSelfAccepting (s : GraphState) (m : Nat) (I A : List Nat) (sa : Bool) (k : Nat) :
    ((updateModuleInfo s m (I.map ModRef.node) (A.map ModRef.node) sa).1.nodes k).isSelfAccepting
      = if k = m then sa else (s.nodes k).isSelfAccepting := by
  by_cases hk : k = m <;>
    simp [updateModuleInfo, acceptedFold_nodes, dropFold_nodes, importFold_selfAccepting,
      setNode, hk]

/-- `updateModuleInfo` (node arguments): `importedModules` afterwards. -/
theorem umi_importedModules (s : GraphState) (m : Nat) (I A : List Nat) (sa : Bool) (k : Nat) :
    ((updateModuleInfo s m (I.map ModRef.node) (A.map ModRef.node) sa).1.nodes k).importedModules
      = if k = m then I.foldl insertOnce [] else (s.nodes k).importedModules := by
  by_cases hk : k = m
  · simp [updateModuleInfo, acceptedFold_nodes, dropFold_nodes, importFold_importedModules,
      setNode, hk]
  · simp [updateModuleInfo, acceptedFold_nodes, dropFold_nodes,
      importFold_importedModules_ne _ _ _ _ hk, setNode, hk]

/-- `updateModuleInfo` (node arguments): `acceptedHmrDeps` afterwards. -/
theorem umi_acceptedHmrDeps (s : GraphState) (m : Nat) (I A : List Nat) (sa : Bool) (k : Nat) :
    ((updateModuleInfo s m (I.map ModRef.node) (A.map ModRef.node) sa).1.nodes k).acceptedHmrDeps
      = if k = m then A.foldl insertOnce [] else (s.nodes k).acceptedHmrDeps := by
  by_cases hk : k = m <;>
    simp [updateModuleInfo, acceptedFold_nodes, dropFold_nodes, importFold_accepted,
      setNode, hk]

/-- Importers are untouched by the accepted fold. -/
theorem acceptedFold_importers (m : Nat) (A : List Nat) (s : GraphState) (k : Nat) :
    (((A.map ModRef.node).foldl (addAcceptedStep m) s).nodes k).importers
      = (s.nodes k).importers := by
  rw [acceptedFold_nodes]

/-- Importers after the drop fold, as a projection corollary. -/
theorem dropFold_importers (m : Nat) (next prev : List Nat)
    (sacc : GraphState × Option (List Nat)) (k : Nat) :
    ((prev.foldl (dropImportStep m next) sacc).1.nodes k).importers =
      if k ∈ prev ∧ k ∉ next then setDelete ((sacc.1.nodes k).importers) m
      else (sacc.1.nodes k).importers := by
  rw [dropFold_nodes]

/-- `updateModuleInfo` (node arguments): `importers` afterwards. -/
theorem umi_importers (s : GraphState) (m : Nat) (I A : List Nat) (sa : Bool) (k : Nat) :
    ((updateModuleInfo s m (I.map ModRef.node) (A.map ModRef.node) sa).1.nodes k).importers
      = if k ∈ I then insertOnce ((s.nodes k).importers) m
        else if k ∈ (s.nodes m).importedModules then setDelete ((s.nodes k).importers) m
        else (s.nodes k).importers := by
  unfold updateModuleInfo
  simp only []
  rw [acceptedFold_importers]
  have hreset : ∀ (g : Nat → NodeData) (k : Nat),
      (setNode g m (fun nd => { nd with acceptedHmrDeps := [] }) k).importers
        = (g k).importers := by
    intro g k
    unfold setNode
    split <;> rfl
  rw [hreset]
  rw [dropFold_importers]
  simp only [importFold_importers, importFold_importedModules, setNode]
  by_cases hk : k = m
  · subst hk
    by_cases hkI : k ∈ I <;> by_cases hkp : k ∈ (s.nodes k).importedModules <;>
      simp [mem_foldl_insertOnce, hkI, hkp]
  · by_cases hkI : k ∈ I <;> by_cases hkp : k ∈ (s.nodes m).importedModules <;>
      simp [mem_foldl_insertOnce, hkI, hkp, hk]

theorem setNode_selfAcc_importers (g : Nat → NodeData) (m : Nat) (sa : Bool) (k : Nat) :
    (setNode g m (fun nd => { nd with isSelfAccepting := sa }) k).importers
      = (g k).importers := by
  unfold setNode
  split <;> rfl

theorem setNode_resetImports_importers (g : Nat → NodeData) (m k : Nat) :
    (setNode g m (fun nd => { nd with importedModules := ([] : List Nat) }) k).importers
      = (g k).importers := by
  unfold setNode
  split <;> rfl

theorem setNode_selfAcc_importedModules (g : Nat → NodeData) (m : Nat) (sa : Bool) (k : Nat) :
    (setNode g m (fun nd => { nd with isSelfAccepting := sa }) k).importedModules
      = (g k).importedModules := by
  unfold setNode
  split <;> rfl

theorem setNode_resetImports_importedModules_self (g : Nat → NodeData) (m : Nat) :
    (setNode g m (fun nd => { nd with importedModules := ([] : List Nat) }) m).importedModules
      = [] := by
  unfold setNode
  simp

/-- `updateModuleInfo` (node arguments): the returned `noLongerImported` set, phrased against
the pre-state: it is `none` iff no previously-imported, now-dropped dep lost its
last importer, and otherwise contains exactly those deps. -/
theorem umi_ret (s : GraphState) (m : Nat) (I A : List Nat) (sa : Bool) :
    ((updateModuleInfo s m (I.map ModRef.node) (A.map ModRef.node) sa).2 = none ↔
        ∀ x ∈ (s.nodes m).importedModules, x ∉ I →
          setDelete ((s.nodes x).importers) m ≠ []) ∧
    (∀ x, x ∈ ((updateModuleInfo s m (I.map ModRef.node) (A.map ModRef.node) sa).2.getD []) ↔
        (x ∈ (s.nodes m).importedModules ∧ x ∉ I ∧ setDelete ((s.nodes x).importers) m = [])) := by
  unfold updateModuleInfo
  simp only []
  constructor
  · rw [(dropFold_ret m _ _ _ _).2]
    simp only [importFold_importers, importFold_importedModules, setNode_selfAcc_importers,
      setNode_resetImports_importers, setNode_selfAcc_importedModules,
      setNode_resetImports_importedModules_self, mem_foldl_insertOnce, List.not_mem_nil,
      false_or, true_and, ne_eq]
    constructor
    · intro h x hx hxI
      have hh := h x hx hxI
      rwa [if_neg hxI] at hh
    · intro h x hx hxI
      rw [if_neg hxI]
      exact h x hx hxI
  · intro x
    rw [(dropFold_ret m _ _ _ _).1 x]
    simp only [importFold_importers, importFold_importedModules, setNode_selfAcc_importers,
      setNode_resetImports_importers, setNode_selfAcc_importedModules,
      setNode_resetImports_importedModules_self, mem_foldl_insertOnce, List.not_mem_nil,
      false_or, Option.getD_none]
    constructor
    · rintro ⟨hx, hxI, hdel⟩
      rw [if_neg hxI] at hdel
      exact ⟨hx, hxI, hdel⟩
    · rintro ⟨hx, hxI, hdel⟩
      refine ⟨hx, hxI, ?_⟩
      rw [if_neg hxI]
      exact hdel

/-- Claim C3: for every module `m`, imported set `I`, accepted set `A` and boolean `sa`,
after `updateModuleInfo(m, I, A, sa)`: `m.importedModules` equals `I` and
`m.acceptedHmrDeps` equals `A` (as sets), `m.isSelfAccepting = sa`, every module previously
in `m.importedModules` but not in `I` has had `m` removed from its importers, and the call
returns exactly the set of such removed importees whose importers became empty — `none`
(JS `undefined`) when that set is empty. -/
theorem c3_update_module_info_postconditions (s : GraphState) (m : Nat) (I A : List Nat)
    (sa : Bool) :
    (∀ x, x ∈ ((updateModuleInfo s m (I.map ModRef.node) (A.map ModRef.node) sa).1.nodes m).importedModules
        ↔ x ∈ I) ∧
    (∀ x, x ∈ ((updateModuleInfo s m (I.map ModRef.node) (A.map ModRef.node) sa).1.nodes m).acceptedHmrDeps
        ↔ x ∈ A) ∧
    ((updateModuleInfo s m (I.map ModRef.node) (A.map ModRef.node) sa).1.nodes m).isSelfAccepting = sa ∧
    (∀ d ∈ (s.nodes m).importedModules, d ∉ I →
        m ∉ ((updateModuleInfo s m (I.map ModRef.node) (A.map ModRef.node) sa).1.nodes d).importers) ∧
    ((updateModuleInfo s m (I.map ModRef.node) (A.map ModRef.node) sa).2 = none ↔
        ∀ d ∈ (s.nodes m).importedModules, d ∉ I →
          ((updateModuleInfo s m (I.map ModRef.node) (A.map ModRef.node) sa).1.nodes d).importers ≠ []) ∧
    (∀ L, (updateModuleInfo s m (I.map ModRef.node) (A.map ModRef.node) sa).2 = some L →
        ∀ x, (x ∈ L ↔ x ∈ (s.nodes m).importedModules ∧ x ∉ I ∧
          ((updateModuleInfo s m (I.map ModRef.node) (A.map ModRef.node) sa).1.nodes x).importers = [])) := by
  refine ⟨?_, ?_, ?_, ?_, ?_, ?_⟩
  · intro x
    rw [umi_importedModules, if_pos rfl, mem_foldl_insertOnce]
    simp
  · intro x
    rw [umi_acceptedHmrDeps, if_pos rfl, mem_foldl_insertOnce]
    simp
  · rw [umi_isSelfAccepting, if_pos rfl]
  · intro d hd hdI
    rw [umi_importers, if_neg hdI, if_pos hd]
    exact not_mem_setDelete _ _
  · rw [(umi_ret s m I A sa).1]
    constructor
    · intro h d hd hdI
      rw [umi_importers, if_neg hdI, if_pos hd]
      exact h d hd hdI
    · intro h d hd hdI
      have hh := h d hd hdI
      rwa [umi_importers, if_neg hdI, if_pos hd] at hh
  · intro L hL x
    have hx := (umi_ret s m I A sa).2 x
    rw [hL] at hx
    simp only [Option.getD_some] at hx
    rw [hx]
    constructor
    · rintro ⟨h1, h2, h3⟩
      refine ⟨h1, h2, ?_⟩
      rw [umi_importers, if_neg h2, if_pos h1]
      exact h3
    · rintro ⟨h1, h2, h3⟩
      refine ⟨h1, h2, ?_⟩
      rwa [umi_importers, if_neg h2, if_pos h1] at h3

/-- A small concrete graph state for the C3 witness: node 0 imports node 1. -/
def c3State : GraphState :=
  { emptyModuleGraph (fun u => (u, u, none)) with
    nodes := fun k =>
      if k = 0 then { url := "/a", type := "js", importedModules := [1] }
      else if k = 1 then { url := "/b", type := "js", importers := [0] }
      else mkModuleNode "" }

/-- Witness for C3 at a concrete input: dropping the import edge 0 → 1 removes 0 from
the importers of 1, returns exactly `[1]` as no-longer-imported, and sets the new fields. -/
theorem c3_update_module_info_witness :
    ((updateModuleInfo c3State 0 ([].map ModRef.node) ([].map ModRef.node) true).1.nodes 1).importers = [] ∧
    (0 : Nat) ∉ ((updateModuleInfo c3State 0 ([].map ModRef.node) ([].map ModRef.node) true).1.nodes 1).importers ∧
    ((updateModuleInfo c3State 0 ([].map ModRef.node) ([].map ModRef.node) true).1.nodes 0).isSelfAccepting = true ∧
    (1 : Nat) ∈ ((updateModuleInfo c3State 0 ([].map ModRef.node) ([].map ModRef.node) true).2.getD []) := by
  have h := c3_update_module_info_postconditions c3State 0 [] [] true
  refine ⟨by decide, ?_, h.2.2.1, by decide⟩
  exact h.2.2.2.1 1 (by decide) (by decide)

/-! ## C7: the accepted-deps ⊆ imported-modules ∪ self invariant -/

/-- Claim C7, counterexample. The graph operations do not themselves enforce the invariant:
starting from the empty graph, `ensureEntryFromUrl "/a"` and `ensureEntryFromUrl "/b"`
create nodes 0 and 1, and `updateModuleInfo` on node 0 with an empty imported set but
accepted set `{node 1}` leaves node 0 with `acceptedHmrDeps = {1}` and
`importedModules = ∅`, violating `accepted_hmr_deps ⊆ imported_modules ∪ {self}`. -/
theorem c7_invariant_counterexample :
    (((runOps 4 (emptyModuleGraph fun u => (u, u, none))
        [.ensureEntry "/a", .ensureEntry "/b",
         .updateInfo 0 [] [ModRef.node 1] false]).nodes 0).acceptedHmrDeps,
     ((runOps 4 (emptyModuleGraph fun u => (u, u, none))
        [.ensureEntry "/a", .ensureEntry "/b",
         .updateInfo 0 [] [ModRef.node 1] false]).nodes 0).importedModules)
      = ([1], []) ∧ (1 : Nat) ≠ 0 := by
  exact ⟨rfl, by decide⟩

/-- The url-index bindings are stable, the resolver is fixed and the allocator is monotone
across the graph mutations: new bindings are only ever added for absent keys. -/
structure GraphExtends (s t : GraphState) : Prop where
  resolveFn : t.resolveUrlFn = s.resolveUrlFn
  allocLe : s.alloc ≤ t.alloc
  urlBind : ∀ key v, mapGet s.urlToModuleMap key = some v → mapGet t.urlToModuleMap key = some v

theorem GraphExtends.rfl (s : GraphState) : GraphExtends s s :=
  ⟨Eq.refl _, Nat.le_refl _, fun _ _ h => h⟩

theorem GraphExtends.trans_ge {s t u : GraphState} (h1 : GraphExtends s t)
    (h2 : GraphExtends t u) : GraphExtends s u :=
  ⟨h2.resolveFn.trans h1.resolveFn, Nat.le_trans h1.allocLe h2.allocLe,
   fun k v h => h2.urlBind k v (h1.urlBind k v h)⟩

theorem mapGet_cons_ne (m : List (String × Nat)) (k key : String) (v : Nat) (h : k ≠ key) :
    mapGet ((k, v) :: m) key = mapGet m key := by
  simp [mapGet, List.find?, h]

/-- A state differing only in `nodes` extends the original. -/
theorem extends_setNodes (s : GraphState) (g : Nat → NodeData) :
    GraphExtends s { s with nodes := g } :=
  ⟨Eq.refl _, Nat.le_refl _, fun _ _ h => h⟩

theorem extends_ensure (s : GraphState) (u : String) :
    GraphExtends s (ensureEntryFromUrl s u).2 := by
  unfold ensureEntryFromUrl
  simp only []
  cases h : mapGet s.urlToModuleMap (s.resolveUrlFn u).1 with
  | some m => exact GraphExtends.rfl s
  | none =>
    refine ⟨Eq.refl _, Nat.le_succ _, fun key v hb => ?_⟩
    have hne : (s.resolveUrlFn u).1 ≠ key := by
      intro he
      rw [he] at h
      rw [h] at hb
      exact Option.noConfusion hb
    simpa [mapGet_cons_ne _ _ _ _ hne] using hb

/-- After `ensureEntryFromUrl`, the resolved url is bound to the returned node. -/
theorem ensure_binding (s : GraphState) (u : String) :
    mapGet (ensureEntryFromUrl s u).2.urlToModuleMap (s.resolveUrlFn u).1
      = some (ensureEntryFromUrl s u).1 := by
  unfold ensureEntryFromUrl
  simp only []
  cases h : mapGet s.urlToModuleMap (s.resolveUrlFn u).1 with
  | some m => exact h
  | none => exact mapGet_cons_self _ _ _

/-- `ensureEntryFromUrl` never touches a node below the allocator mark. -/
theorem ensure_nodes_lt (s : GraphState) (u : String) (k : Nat) (hk : k < s.alloc) :
    (ensureEntryFromUrl s u).2.nodes k = s.nodes k := by
  unfold ensureEntryFromUrl
  simp only []
  cases h : mapGet s.urlToModuleMap (s.resolveUrlFn u).1 with
  | some m => rfl
  | none =>
    simp only []
    rw [if_neg (Nat.ne_of_lt hk)]

/-- A `string | ModuleNode` argument is already resolved in `t` to node `d`: resolving it is
a pure lookup returning `d` without changing the state. -/
def Resolved (t : GraphState) (r : ModRef) (d : Nat) : Prop := resolveRef t r = (d, t)

/-- A `Resolved` url ref has its binding in the url index. -/
theorem Resolved.binding {t : GraphState} {u : String} {d : Nat}
    (h : Resolved t (ModRef.url u) d) :
    mapGet t.urlToModuleMap (t.resolveUrlFn u).1 = some d := by
  unfold Resolved resolveRef at h
  revert h
  unfold ensureEntryFromUrl
  simp only []
  cases hb : mapGet t.urlToModuleMap (t.resolveUrlFn u).1 with
  | some m =>
    intro h
    rw [Prod.mk.injEq] at h
    rw [h.1]
  | none =>
    intro h
    exfalso
    have halloc := congrArg (fun p => p.2.alloc) h
    simp only [] at halloc
    omega

/-- When the resolved url is already bound, `ensureEntryFromUrl` is a pure lookup. -/
theorem ensure_of_binding (t : GraphState) (u : String) (n : Nat)
    (hb : mapGet t.urlToModuleMap (t.resolveUrlFn u).1 = some n) :
    ensureEntryFromUrl t u = (n, t) := by
  unfold ensureEntryFromUrl
  simp only [hb]

/-- Resolution results are stable under graph extension. -/
theorem Resolved.mono {t t2 : GraphState} {r : ModRef} {d : Nat}
    (h : Resolved t r d) (hext : GraphExtends t t2) : Resolved t2 r d := by
  cases r with
  | node n =>
    unfold Resolved resolveRef at h ⊢
    rw [Prod.mk.injEq] at h
    rw [h.1]
  | url u =>
    have hb2 := hext.urlBind _ _ h.binding
    rw [← hext.resolveFn] at hb2
    exact ensure_of_binding t2 u d hb2

/-- After `resolveRef`, the ref is resolved in the resulting state to the returned node. -/
theorem resolveRef_resolved (s : GraphState) (r : ModRef) :
    Resolved (resolveRef s r).2 r (resolveRef s r).1 := by
  cases r with
  | node n => rfl
  | url u =>
    have hb := ensure_binding s u
    have hfn : (ensureEntryFromUrl s u).2.resolveUrlFn = s.resolveUrlFn :=
      (extends_ensure s u).resolveFn
    rw [← hfn] at hb
    exact ensure_of_binding _ u _ hb

theorem extends_resolveRef (s : GraphState) (r : ModRef) :
    GraphExtends s (resolveRef s r).2 := by
  cases r with
  | node n => exact GraphExtends.rfl s
  | url u => exact extends_ensure s u

/-- `resolveRef` never touches a node below the allocator mark. -/
theorem resolveRef_nodes_lt (s : GraphState) (r : ModRef) (k : Nat) (hk : k < s.alloc) :
    (resolveRef s r).2.nodes k = s.nodes k := by
  cases r with
  | node n => rfl
  | url u => exact ensure_nodes_lt s u k hk

/-- Pointwise effect of the graph operations on a node other than the operation's target:
its accepted/imported sets are either untouched, or the node was (re)created fresh with an
empty accepted set. -/
def PreservedOrFresh (g0 g : Nat → NodeData) (k : Nat) : Prop :=
  ((g k).acceptedHmrDeps = (g0 k).acceptedHmrDeps ∧
   (g k).importedModules = (g0 k).importedModules) ∨
  (g k).acceptedHmrDeps = []

theorem PreservedOrFresh.refl (g : Nat → NodeData) (k : Nat) : PreservedOrFresh g g k :=
  Or.inl ⟨rfl, rfl⟩

theorem PreservedOrFresh.trans_pf {g0 g1 g2 : Nat → NodeData} {k : Nat}
    (h1 : PreservedOrFresh g0 g1 k) (h2 : PreservedOrFresh g1 g2 k) :
    PreservedOrFresh g0 g2 k := by
  rcases h2 with ⟨ha2, hi2⟩ | ha2
  · rcases h1 with ⟨ha1, hi1⟩ | ha1
    · exact Or.inl ⟨ha2.trans ha1, hi2.trans hi1⟩
    · exact Or.inr (ha2.trans ha1)
  · exact Or.inr ha2

/-- A node update that keeps both accepted and imported sets. -/
theorem pf_setNode (g : Nat → NodeData) (n : Nat) (f : NodeData → NodeData)
    (hf : ∀ nd, (f nd).acceptedHmrDeps = nd.acceptedHmrDeps ∧
      (f nd).importedModules = nd.importedModules) (k : Nat) :
    PreservedOrFresh g (setNode g n f) k := by
  unfold setNode
  by_cases hk : k = n
  · subst hk
    exact Or.inl (by simp [hf])
  · exact Or.inl (by simp [hk])

/-- A node update elsewhere. -/
theorem pf_setNode_ne (g : Nat → NodeData) (n : Nat) (f : NodeData → NodeData) (k : Nat)
    (hk : k ≠ n) : PreservedOrFresh g (setNode g n f) k := by
  unfold setNode
  exact Or.inl (by simp [hk])

theorem pf_ensure (s : GraphState) (u : String) (k : Nat) :
    PreservedOrFresh s.nodes (ensureEntryFromUrl s u).2.nodes k := by
  unfold ensureEntryFromUrl
  simp only []
  cases h : mapGet s.urlToModuleMap (s.resolveUrlFn u).1 with
  | some m => exact PreservedOrFresh.refl _ _
  | none =>
    by_cases hk : k = s.alloc
    · subst hk
      exact Or.inr (by simp [mkModuleNode])
    · exact Or.inl (by simp [hk])

theorem pf_resolveRef (s : GraphState) (r : ModRef) (k : Nat) :
    PreservedOrFresh s.nodes (resolveRef s r).2.nodes k := by
  cases r with
  | node n => exact PreservedOrFresh.refl _ _
  | url u => exact pf_ensure s u k

theorem pf_createFileOnlyEntry (s : GraphState) (f : String) (k : Nat) :
    PreservedOrFresh s.nodes (createFileOnlyEntry s f).2.nodes k := by
  unfold createFileOnlyEntry
  simp only []
  cases h : ((fileMapGet s.fileToModulesMap (normalizePath f)).getD []).find?
      (fun m => (s.nodes m).url = FS_PREFIX ++ normalizePath f ||
        (s.nodes m).id = some (normalizePath f)) with
  | some m => exact PreservedOrFresh.refl _ _
  | none =>
    by_cases hk : k = s.alloc
    · subst hk
      exact Or.inr (by simp [mkModuleNode])
    · exact Or.inl (by simp [hk])

theorem pf_addImportStep (m : Nat) (s : GraphState) (r : ModRef) (k : Nat) (hk : k ≠ m) :
    PreservedOrFresh s.nodes (addImportStep m s r).nodes k := by
  have heq : (addImportStep m s r).nodes
      = setNode (setNode (resolveRef s r).2.nodes (resolveRef s r).1
          (fun nd => { nd with importers := insertOnce nd.importers m })) m
          (fun nd => { nd with importedModules := insertOnce nd.importedModules (resolveRef s r).1 }) := rfl
  rw [heq]
  exact (pf_resolveRef s r k).trans_pf
    ((pf_setNode (resolveRef s r).2.nodes (resolveRef s r).1
        (fun nd => { nd with importers := insertOnce nd.importers m })
        (fun nd => ⟨rfl, rfl⟩) k).trans_pf (pf_setNode_ne _ _ _ k hk))

theorem pf_addAcceptedStep (m : Nat) (s : GraphState) (r : ModRef) (k : Nat) (hk : k ≠ m) :
    PreservedOrFresh s.nodes (addAcceptedStep m s r).nodes k := by
  have heq : (addAcceptedStep m s r).nodes
      = setNode (resolveRef s r).2.nodes m
          (fun nd => { nd with acceptedHmrDeps := insertOnce nd.acceptedHmrDeps (resolveRef s r).1 }) := rfl
  rw [heq]
  exact (pf_resolveRef s r k).trans_pf (pf_setNode_ne _ _ _ k hk)

theorem pf_dropImportStep (m : Nat) (next : List Nat) (acc : GraphState × Option (List Nat))
    (dep k : Nat) : PreservedOrFresh acc.1.nodes (dropImportStep m next acc dep).1.nodes k := by
  have h := dropImportStep_nodes m next acc dep k
  refine Or.inl ?_
  rw [h]
  exact ⟨rfl, rfl⟩

theorem pf_foldl {α : Type} (step : GraphState → α → GraphState) (k : Nat)
    (hstep : ∀ (s : GraphState) (x : α), PreservedOrFresh s.nodes (step s x).nodes k) :
    ∀ (l : List α) (s : GraphState), PreservedOrFresh s.nodes (l.foldl step s).nodes k := by
  intro l
  induction l with
  | nil => intro s; exact PreservedOrFresh.refl _ _
  | cons x rest ih =>
    intro s
    exact (hstep s x).trans_pf (ih (step s x))

theorem pf_dropFold (m : Nat) (next prev : List Nat) (k : Nat) :
    ∀ sacc : GraphState × Option (List Nat),
      PreservedOrFresh sacc.1.nodes ((prev.foldl (dropImportStep m next) sacc).1).nodes k := by
  induction prev with
  | nil => intro sacc; exact PreservedOrFresh.refl _ _
  | cons dep rest ih =>
    intro sacc
    rw [List.foldl_cons]
    exact (pf_dropImportStep m next sacc dep k).trans_pf (ih _)

theorem pf_updateModuleInfo (s : GraphState) (m : Nat) (i a : List ModRef) (sa : Bool)
    (k : Nat) (hk : k ≠ m) :
    PreservedOrFresh s.nodes (updateModuleInfo s m i a sa).1.nodes k := by
  unfold updateModuleInfo
  simp only []
  refine PreservedOrFresh.trans_pf ?_
    (pf_foldl (addAcceptedStep m) k (fun s x => pf_addAcceptedStep m s x k hk) a _)
  refine PreservedOrFresh.trans_pf ?_ (pf_setNode_ne _ m _ k hk)
  refine PreservedOrFresh.trans_pf ?_ (pf_dropFold m _ _ k _)
  refine PreservedOrFresh.trans_pf ?_
    (pf_foldl (addImportStep m) k (fun s x => pf_addImportStep m s x k hk) i _)
  exact (pf_setNode_ne s.nodes m _ k hk).trans_pf (pf_setNode_ne _ m _ k hk)

theorem pf_invalidateSSR : ∀ (fuel : Nat) (g : Nat → NodeData) (m : Nat) (seen : List Nat)
    (k : Nat), PreservedOrFresh g (invalidateSSRFuel fuel g m seen).1 k := by
  intro fuel
  induction fuel with
  | zero =>
    intro g m seen k
    exact PreservedOrFresh.refl _ _
  | succ f ih =>
    intro g m seen k
    unfold invalidateSSRFuel
    by_cases hm : m ∈ seen
    · rw [if_pos hm]
      exact PreservedOrFresh.refl _ _
    · rw [if_neg hm]
      simp only []
      have hfold : ∀ (l : List Nat) (acc : (Nat → NodeData) × List Nat),
          PreservedOrFresh acc.1
            ((l.foldl (fun acc imp => invalidateSSRFuel f acc.1 imp acc.2) acc).1) k := by
        intro l
        induction l with
        | nil => intro acc; exact PreservedOrFresh.refl _ _
        | cons imp rest ihl =>
          intro acc
          rw [List.foldl_cons]
          exact (ih acc.1 imp acc.2 k).trans_pf (ihl _)
      exact (pf_setNode g m (fun nd => { nd with ssrModule := false })
        (fun nd => ⟨rfl, rfl⟩) k).trans_pf (hfold _ _)

theorem pf_invalidateModule (fuel : Nat) (g : Nat → NodeData) (m : Nat) (seen : List Nat)
    (k : Nat) : PreservedOrFresh g (invalidateModule fuel g m seen).1 k := by
  unfold invalidateModule
  exact (pf_setNode g m
      (fun nd => { nd with info := false, transformResult := none, ssrTransformResult := none })
      (fun nd => ⟨rfl, rfl⟩) k).trans_pf (pf_invalidateSSR fuel _ m _ k)

theorem pf_invalidateModule_fold (fuel : Nat) (k : Nat) :
    ∀ (l : List Nat) (acc : (Nat → NodeData) × List Nat),
      PreservedOrFresh acc.1
        ((l.foldl (fun acc m => invalidateModule fuel acc.1 m acc.2) acc).1) k := by
  intro l
  induction l with
  | nil => intro acc; exact PreservedOrFresh.refl _ _
  | cons m rest ih =>
    intro acc
    rw [List.foldl_cons]
    exact (pf_invalidateModule fuel acc.1 m acc.2 k).trans_pf (ih _)

theorem pf_onFileChange (fuel : Nat) (s : GraphState) (file : String) (k : Nat) :
    PreservedOrFresh s.nodes (onFileChange fuel s file).nodes k := by
  unfold onFileChange
  cases h : getModulesByFile s file with
  | none => exact PreservedOrFresh.refl _ _
  | some mods =>
    simp only []
    exact pf_invalidateModule_fold fuel k mods (s.nodes, [])

theorem pf_invalidateAll (fuel : Nat) (s : GraphState) (k : Nat) :
    PreservedOrFresh s.nodes (invalidateAll fuel s).nodes k := by
  unfold invalidateAll
  simp only []
  have hfold : ∀ (l : List (String × Nat)) (acc : (Nat → NodeData) × List Nat),
      PreservedOrFresh acc.1
        ((l.foldl (fun acc p => invalidateModule fuel acc.1 p.2 acc.2) acc).1) k := by
    intro l
    induction l with
    | nil => intro acc; exact PreservedOrFresh.refl _ _
    | cons p rest ih =>
      intro acc
      rw [List.foldl_cons]
      exact (pf_invalidateModule fuel acc.1 p.2 acc.2 k).trans_pf (ih _)
  exact hfold _ _

theorem extends_post_resolve_addImport (m : Nat) (s : GraphState) (r : ModRef) :
    GraphExtends (resolveRef s r).2 (addImportStep m s r) :=
  ⟨rfl, Nat.le_refl _, fun _ _ h => h⟩

theorem extends_addImportStep (m : Nat) (s : GraphState) (r : ModRef) :
    GraphExtends s (addImportStep m s r) :=
  (extends_resolveRef s r).trans_ge (extends_post_resolve_addImport m s r)

theorem extends_post_resolve_addAccepted (m : Nat) (s : GraphState) (r : ModRef) :
    GraphExtends (resolveRef s r).2 (addAcceptedStep m s r) :=
  ⟨rfl, Nat.le_refl _, fun _ _ h => h⟩

theorem extends_addAcceptedStep (m : Nat) (s : GraphState) (r : ModRef) :
    GraphExtends s (addAcceptedStep m s r) :=
  (extends_resolveRef s r).trans_ge (extends_post_resolve_addAccepted m s r)

/-- One import step, seen from `m` (which exists, so resolution cannot clobber it):
its imported set gains exactly the resolved dep. -/
theorem addImportStep_imported_m (m : Nat) (s : GraphState) (r : ModRef) (hm : m < s.alloc) :
    ((addImportStep m s r).nodes m).importedModules
      = insertOnce ((s.nodes m).importedModules) (resolveRef s r).1 := by
  have heq : (addImportStep m s r).nodes
      = setNode (setNode (resolveRef s r).2.nodes (resolveRef s r).1
          (fun nd => { nd with importers := insertOnce nd.importers m })) m
          (fun nd => { nd with importedModules := insertOnce nd.importedModules (resolveRef s r).1 }) := rfl
  rw [heq]
  have hnm := resolveRef_nodes_lt s r m hm
  simp only [setNode, if_pos rfl]
  by_cases hd : m = (resolveRef s r).1
  · rw [hd] at hnm
    simp [hd, hnm]
  · simp [hd, hnm]

theorem addImportStep_resolved (m : Nat) (s : GraphState) (r : ModRef) :
    Resolved (addImportStep m s r) r (resolveRef s r).1 :=
  (resolveRef_resolved s r).mono (extends_post_resolve_addImport m s r)

/-- The import fold: the state only extends, `m` survives, its imported set only grows, and
every processed ref is resolved in the final state with its resolved node recorded among
`m`'s imported modules. -/
theorem importFoldG (m : Nat) (refs : List ModRef) :
    ∀ t0 : GraphState, m < t0.alloc →
      GraphExtends t0 (refs.foldl (addImportStep m) t0) ∧
      m < (refs.foldl (addImportStep m) t0).alloc ∧
      (∀ x, x ∈ (t0.nodes m).importedModules →
        x ∈ ((refs.foldl (addImportStep m) t0).nodes m).importedModules) ∧
      (∀ r ∈ refs, ∃ d, Resolved (refs.foldl (addImportStep m) t0) r d ∧
        d ∈ ((refs.foldl (addImportStep m) t0).nodes m).importedModules) := by
  induction refs with
  | nil =>
    intro t0 hm
    exact ⟨GraphExtends.rfl _, hm, fun x h => h, by simp⟩
  | cons r rest ih =>
    intro t0 hm
    rw [List.foldl_cons]
    have hstepext := extends_addImportStep m t0 r
    have hstepm : m < (addImportStep m t0 r).alloc := Nat.lt_of_lt_of_le hm hstepext.allocLe
    obtain ⟨hext, hmf, hsup, hres⟩ := ih (addImportStep m t0 r) hstepm
    have himp := addImportStep_imported_m m t0 r hm
    refine ⟨hstepext.trans_ge hext, hmf, ?_, ?_⟩
    · intro x hx
      refine hsup x ?_
      rw [himp]
      exact (mem_insertOnce _ _ _).2 (Or.inl hx)
    · intro r' hr'
      rcases List.mem_cons.1 hr' with rfl | hr''
      · refine ⟨(resolveRef t0 r').1, (addImportStep_resolved m t0 r').mono hext, ?_⟩
        refine hsup _ ?_
        rw [himp]
        exact (mem_insertOnce _ _ _).2 (Or.inr rfl)
      · exact hres r' hr''

/-- The `prevImports` drop fold does not touch the indices or the allocator. -/
theorem dropFold_extends (m : Nat) (next prev : List Nat) :
    ∀ sacc : GraphState × Option (List Nat),
      GraphExtends sacc.1 (prev.foldl (dropImportStep m next) sacc).1 := by
  induction prev with
  | nil => intro sacc; exact GraphExtends.rfl _
  | cons dep rest ih =>
    intro sacc
    rw [List.foldl_cons]
    refine GraphExtends.trans_ge ?_ (ih _)
    unfold dropImportStep
    by_cases hd : dep ∈ next
    · rw [if_pos hd]
      exact GraphExtends.rfl _
    · rw [if_neg hd]
      simp only []
      split
      · exact ⟨rfl, Nat.le_refl _, fun _ _ h => h⟩
      · exact ⟨rfl, Nat.le_refl _, fun _ _ h => h⟩

/-- The accepted fold keeps the invariant at `m` when every ref is either `m` itself or
already resolved to one of `m`'s imported modules. -/
theorem acceptedFoldG (m : Nat) (refs : List ModRef) :
    ∀ t : GraphState, m < t.alloc →
      (∀ r ∈ refs, r = ModRef.node m ∨
        ∃ d, Resolved t r d ∧ d ∈ (t.nodes m).importedModules) →
      (∀ x ∈ (t.nodes m).acceptedHmrDeps, x ∈ (t.nodes m).importedModules ∨ x = m) →
      ∀ x ∈ ((refs.foldl (addAcceptedStep m) t).nodes m).acceptedHmrDeps,
        x ∈ ((refs.foldl (addAcceptedStep m) t).nodes m).importedModules ∨ x = m := by
  induction refs with
  | nil =>
    intro t hm hres hacc
    exact hacc
  | cons r rest ih =>
    intro t hm hres hacc
    rw [List.foldl_cons]
    -- the head ref resolves without changing the state
    have hr := hres r (List.mem_cons_self _ _)
    have hdres : ∃ d, resolveRef t r = (d, t) ∧ (d ∈ (t.nodes m).importedModules ∨ d = m) := by
      rcases hr with rfl | ⟨d, hd, hdm⟩
      · exact ⟨m, rfl, Or.inr rfl⟩
      · exact ⟨d, hd, Or.inl hdm⟩
    obtain ⟨d, hdr, hdm⟩ := hdres
    have hstepn : (addAcceptedStep m t r).nodes
        = setNode t.nodes m
            (fun nd => { nd with acceptedHmrDeps := insertOnce nd.acceptedHmrDeps d }) := by
      unfold addAcceptedStep
      simp only []
      rw [hdr]
    have hext := extends_addAcceptedStep m t r
    refine ih (addAcceptedStep m t r) (Nat.lt_of_lt_of_le hm hext.allocLe) ?_ ?_
    · intro r' hr'
      rcases hres r' (List.mem_cons_of_mem _ hr') with h | ⟨d', hd', hdm'⟩
      · exact Or.inl h
      · refine Or.inr ⟨d', hd'.mono hext, ?_⟩
        rw [hstepn]
        simpa [setNode] using hdm'
    · intro x hx
      rw [hstepn] at hx ⊢
      simp only [setNode, if_pos rfl] at hx ⊢
      rcases (mem_insertOnce _ _ _).1 hx with hx' | rfl
      · rcases hacc x hx' with h | h
        · exact Or.inl (by simpa using h)
        · exact Or.inr h
      · rcases hdm with h | h
        · exact Or.inl (by simpa using h)
        · exact Or.inr h

/-- The tail of `updateModuleInfo` seen from the module `m` itself: starting from any state
(the one reached after `isSelfAccepting` is set and `importedModules` is reset), running
the import fold, the drop fold, the accepted reset and the accepted fold leaves
`acceptedHmrDeps ⊆ importedModules ∪ {m}` at `m`, provided every accepted ref is an imported
ref or `m` itself. -/
theorem umi_tail_inv (m : Nat) (i a : List ModRef) (prev : List Nat) (t0 : GraphState)
    (hm : m < t0.alloc) (hwfa : ∀ r ∈ a, r ∈ i ∨ r = ModRef.node m) :
    ∀ x ∈ ((a.foldl (addAcceptedStep m)
        { (prev.foldl (dropImportStep m
              (((i.foldl (addImportStep m) t0).nodes m).importedModules))
            (i.foldl (addImportStep m) t0, none)).1 with
          nodes := setNode
            (prev.foldl (dropImportStep m
                (((i.foldl (addImportStep m) t0).nodes m).importedModules))
              (i.foldl (addImportStep m) t0, none)).1.nodes m
            (fun nd => { nd with acceptedHmrDeps := [] }) }).nodes m).acceptedHmrDeps,
      x ∈ ((a.foldl (addAcceptedStep m)
        { (prev.foldl (dropImportStep m
              (((i.foldl (addImportStep m) t0).nodes m).importedModules))
            (i.foldl (addImportStep m) t0, none)).1 with
          nodes := setNode
            (prev.foldl (dropImportStep m
                (((i.foldl (addImportStep m) t0).nodes m).importedModules))
              (i.foldl (addImportStep m) t0, none)).1.nodes m
            (fun nd => { nd with acceptedHmrDeps := [] }) }).nodes m).importedModules ∨
      x = m := by
  obtain ⟨hext3, hm3, hsup3, hres3⟩ := importFoldG m i t0 hm
  have hDE := dropFold_extends m (((i.foldl (addImportStep m) t0).nodes m).importedModules)
    prev (i.foldl (addImportStep m) t0, none)
  have hR1 := dropFold_nodes m (((i.foldl (addImportStep m) t0).nodes m).importedModules)
    prev (i.foldl (addImportStep m) t0, none) m
  refine acceptedFoldG m a _ ?_ ?_ ?_
  · exact Nat.lt_of_lt_of_le hm3 hDE.allocLe
  · intro r hr
    rcases hwfa r hr with hri | rfl
    · obtain ⟨d, hd, hdm⟩ := hres3 r hri
      refine Or.inr ⟨d, (hd.mono hDE).mono (extends_setNodes _ _), ?_⟩
      simp only [setNode, if_pos rfl]
      rw [hR1]
      exact hdm
    · exact Or.inl rfl
  · intro x hx
    simp only [setNode, if_pos rfl] at hx
    simp at hx

/-- Well-formedness of one graph operation against the state it runs in: an
`updateModuleInfo` call must target an existing module and accept only modules it imports
(or itself); the other operations are unconstrained. -/
def WFOp (s : GraphState) : GraphOp → Prop
  | .updateInfo m i a _ => m < s.alloc ∧ ∀ r ∈ a, r ∈ i ∨ r = ModRef.node m
  | _ => True

/-- Well-formedness of a whole operation sequence, each op checked against the state it
actually runs in. -/
def WFOps (fuel : Nat) : GraphState → List GraphOp → Prop
  | _, [] => True
  | s, op :: ops => WFOp s op ∧ WFOps fuel (stepOp fuel s op) ops

/-- The claim's invariant, over the node heap. -/
def AcceptedSubsetInv (g : Nat → NodeData) : Prop :=
  ∀ k x, x ∈ (g k).acceptedHmrDeps → x ∈ (g k).importedModules ∨ x = k

theorem inv_stepOp (fuel : Nat) (s : GraphState) (op : GraphOp)
    (hinv : AcceptedSubsetInv s.nodes) (hwf : WFOp s op) :
    AcceptedSubsetInv (stepOp fuel s op).nodes := by
  have ofPF : ∀ t : GraphState, (∀ k, PreservedOrFresh s.nodes t.nodes k) →
      AcceptedSubsetInv t.nodes := by
    intro t hpf k x hx
    rcases hpf k with ⟨ha, hi⟩ | ha
    · rw [ha] at hx
      rw [hi]
      exact hinv k x hx
    · rw [ha] at hx
      simp at hx
  cases op with
  | ensureEntry u => exact ofPF _ (fun k => pf_ensure s u k)
  | fileChange f => exact ofPF _ (fun k => pf_onFileChange fuel s f k)
  | invalidateAllOp => exact ofPF _ (fun k => pf_invalidateAll fuel s k)
  | fileOnlyEntry f => exact ofPF _ (fun k => pf_createFileOnlyEntry s f k)
  | updateInfo m i a sa =>
    obtain ⟨hm, hwfa⟩ := hwf
    intro k x hx
    simp only [stepOp] at hx ⊢
    by_cases hk : k = m
    · subst hk
      revert x hx
      show ∀ x ∈ ((updateModuleInfo s k i a sa).1.nodes k).acceptedHmrDeps,
        x ∈ ((updateModuleInfo s k i a sa).1.nodes k).importedModules ∨ x = k
      unfold updateModuleInfo
      simp only []
      exact umi_tail_inv k i a _ _ hm hwfa
    · rcases pf_updateModuleInfo s m i a sa k hk with ⟨ha, hi⟩ | ha
      · rw [ha] at hx
        rw [hi]
        exact hinv k x hx
      · rw [ha] at hx
        simp at hx

/-- Claim C7 (amended): starting from the empty module graph, after any sequence of the
operations `ensureEntryFromUrl`, `updateModuleInfo`, `onFileChange`, `invalidateAll` and
`createFileOnlyEntry` in which every `updateModuleInfo` call targets an existing module and
passes an accepted set contained in its imported set plus the module itself, every module
`m` satisfies `m.acceptedHmrDeps ⊆ m.importedModules ∪ {m}`. The proviso is forced: the
counterexample shows `updateModuleInfo` does not itself enforce the inclusion. -/
theorem c7_accepted_subset_invariant_amended
    (resolve : String → String × String × Option String) (fuel : Nat) (ops : List GraphOp)
    (hwf : WFOps fuel (emptyModuleGraph resolve) ops) :
    AcceptedSubsetInv (runOps fuel (emptyModuleGraph resolve) ops).nodes := by
  have hbase : AcceptedSubsetInv (emptyModuleGraph resolve).nodes := by
    intro k x hx
    simp [emptyModuleGraph, mkModuleNode] at hx
  have main : ∀ (ops : List GraphOp) (s : GraphState), AcceptedSubsetInv s.nodes →
      WFOps fuel s ops → AcceptedSubsetInv (runOps fuel s ops).nodes := by
    intro ops
    induction ops with
    | nil => intro s hs _; exact hs
    | cons op rest ih =>
      intro s hs hwf
      exact ih (stepOp fuel s op) (inv_stepOp fuel s op hs hwf.1) hwf.2
  exact main ops _ hbase hwf

/-- Witness for C7 (amended) at a concrete well-formed sequence: create `/a` and `/b`,
record that node 0 imports and accepts node 1; the invariant holds at node 0. -/
theorem c7_accepted_subset_invariant_witness :
    (1 : Nat) ∈ ((runOps 4 (emptyModuleGraph fun u => (u, u, none))
        [.ensureEntry "/a", .ensureEntry "/b",
         .updateInfo 0 [ModRef.node 1] [ModRef.node 1] false]).nodes 0).acceptedHmrDeps ∧
    ((1 : Nat) ∈ ((runOps 4 (emptyModuleGraph fun u => (u, u, none))
        [.ensureEntry "/a", .ensureEntry "/b",
         .updateInfo 0 [ModRef.node 1] [ModRef.node 1] false]).nodes 0).importedModules ∨
      (1 : Nat) = 0) := by
  have h := c7_accepted_subset_invariant_amended (fun u => (u, u, none)) 4
    [.ensureEntry "/a", .ensureEntry "/b",
     .updateInfo 0 [ModRef.node 1] [ModRef.node 1] false]
    (by constructor
        · trivial
        · constructor
          · trivial
          · exact ⟨⟨by decide, by intro r hr; simp at hr; subst hr; exact Or.inl (by simp)⟩, trivial⟩)
  have hmem : (1 : Nat) ∈ ((runOps 4 (emptyModuleGraph fun u => (u, u, none))
      [.ensureEntry "/a", .ensureEntry "/b",
       .updateInfo 0 [ModRef.node 1] [ModRef.node 1] false]).nodes 0).acceptedHmrDeps := by
    decide
  exact ⟨hmem, h 0 1 hmem⟩

/-! ## C10: source positions of recorded deps -/

/-- A dep record is well-placed in `chars`: `start` is the index of the opening quote,
`endIdx` one past the closing quote (so `endIdx - start = url.length + 2`), the quotes match
and are one of the three string delimiters, and the characters strictly between them spell
`url`. -/
def GoodDep (chars : List Char) (d : HotDep) : Prop :=
  ∃ q : Char, (q = singleQuoteChar ∨ q = doubleQuoteChar ∨ q = backtickChar) ∧
    d.endIdx = d.start + d.url.length + 2 ∧
    (chars.drop d.start).take (d.url.length + 2) = q :: d.url.data ++ [q]

/-- The quote character matching a string state. -/
def quoteOf : LexerState → Char
  | .inSingleQuoteString => singleQuoteChar
  | .inDoubleQuoteString => doubleQuoteChar
  | .inTemplateString => backtickChar
  | _ => ' '

/-- Whether a lexer state is one of the three string states. -/
def isStringState : LexerState → Prop
  | .inSingleQuoteString => True
  | .inDoubleQuoteString => True
  | .inTemplateString => True
  | _ => False

theorem take_append_add (l tail : List Char) (n : Nat) :
    (l ++ tail).take (l.length + n) = l ++ tail.take n := by
  induction l with
  | nil => simp
  | cons a as ihl =>
    have h : as.length + 1 + n = (as.length + n) + 1 := by omega
    simp only [List.cons_append, List.length_cons, h, List.take_succ_cons, ihl]

theorem take_quote_slice (q c : Char) (l rest : List Char) :
    (q :: (l ++ c :: rest)).take (l.length + 2) = q :: (l ++ [c]) := by
  have h2 : l.length + 2 = (l.length + 1) + 1 := rfl
  rw [h2, List.take_succ_cons]
  have h1 : (l ++ c :: rest).take (l.length + 1) = l ++ (c :: rest).take 1 :=
    take_append_add l (c :: rest) 1
  rw [h1]
  rfl

theorem push_length (s : String) (c : Char) : (s.push c).length = s.length + 1 := by
  show (s.data ++ [c]).length = s.data.length + 1
  simp

theorem push_data (s : String) (c : Char) : (s.push c).data = s.data ++ [c] := rfl

/-- Loop invariant of the lexer: if every already-recorded dep is well-placed in the source
and the current literal of a string state matches the characters after its opening quote,
then every dep in a successful result is well-placed. -/
theorem lexLoop_good : ∀ (cs : List Char) (i : Nat) (st prev : LexerState) (cur : String)
    (urls : List HotDep) (full : List Char) (b : Bool) (deps : List HotDep),
    full.drop i = cs →
    ((st = .inCall ∨ st = .inArray) → cur = "") →
    (isStringState st → ∃ base, i = base + cur.length + 1 ∧
      full.drop base = quoteOf st :: (cur.data ++ cs)) →
    (prev = .inCall ∨ prev = .inArray) →
    (∀ d ∈ urls, GoodDep full d) →
    lexLoop cs i st prev cur urls = .ok (b, deps) →
    ∀ d ∈ deps, GoodDep full d := by
  intro cs
  induction cs with
  | nil =>
    intro i st prev cur urls full b deps _ _ _ _ hurls hrun
    simp only [lexLoop] at hrun
    rw [Except.ok.injEq, Prod.mk.injEq] at hrun
    rw [← hrun.2]
    exact hurls
  | cons c rest ih =>
    intro i st prev cur urls full b deps hdrop h0 hstr hprev hurls hrun
    have hdropS : full.drop (i + 1) = rest := by
      rw [← List.tail_drop, hdrop]
      rfl
    cases st with
    | inCall =>
      have hcur : cur = "" := h0 (Or.inl rfl)
      subst hcur
      simp only [lexLoop] at hrun
      by_cases h1 : c = singleQuoteChar
      · rw [if_pos h1] at hrun
        refine ih (i + 1) .inSingleQuoteString .inCall "" urls full b deps hdropS
          (fun _ => rfl) ?_ (Or.inl rfl) hurls hrun
        intro _
        exact ⟨i, by simp, by rw [hdrop, h1]; rfl⟩
      · rw [if_neg h1] at hrun
        by_cases h2 : c = doubleQuoteChar
        · rw [if_pos h2] at hrun
          refine ih (i + 1) .inDoubleQuoteString .inCall "" urls full b deps hdropS
            (fun _ => rfl) ?_ (Or.inl rfl) hurls hrun
          intro _
          exact ⟨i, by simp, by rw [hdrop, h2]; rfl⟩
        · rw [if_neg h2] at hrun
          by_cases h3 : c = backtickChar
          · rw [if_pos h3] at hrun
            refine ih (i + 1) .inTemplateString .inCall "" urls full b deps hdropS
              (fun _ => rfl) ?_ (Or.inl rfl) hurls hrun
            intro _
            exact ⟨i, by simp, by rw [hdrop, h3]; rfl⟩
          · rw [if_neg h3] at hrun
            by_cases h4 : isJsWhitespace c = true
            · rw [if_pos h4] at hrun
              exact ih (i + 1) .inCall prev "" urls full b deps hdropS (fun _ => rfl)
                (fun h => False.elim h) hprev hurls hrun
            · rw [if_neg h4] at hrun
              rw [if_pos trivial] at hrun
              by_cases h5 : c = '['
              · rw [if_pos h5] at hrun
                exact ih (i + 1) .inArray prev "" urls full b deps hdropS (fun _ => rfl)
                  (fun h => False.elim h) hprev hurls hrun
              · rw [if_neg h5] at hrun
                rw [Except.ok.injEq, Prod.mk.injEq] at hrun
                rw [← hrun.2]
                exact hurls
    | inArray =>
      have hcur : cur = "" := h0 (Or.inr rfl)
      subst hcur
      simp only [lexLoop] at hrun
      by_cases h1 : c = singleQuoteChar
      · rw [if_pos h1] at hrun
        refine ih (i + 1) .inSingleQuoteString .inArray "" urls full b deps hdropS
          (fun _ => rfl) ?_ (Or.inr rfl) hurls hrun
        intro _
        exact ⟨i, by simp, by rw [hdrop, h1]; rfl⟩
      · rw [if_neg h1] at hrun
        by_cases h2 : c = doubleQuoteChar
        · rw [if_pos h2] at hrun
          refine ih (i + 1) .inDoubleQuoteString .inArray "" urls full b deps hdropS
            (fun _ => rfl) ?_ (Or.inr rfl) hurls hrun
          intro _
          exact ⟨i, by simp, by rw [hdrop, h2]; rfl⟩
        · rw [if_neg h2] at hrun
          by_cases h3 : c = backtickChar
          · rw [if_pos h3] at hrun
            refine ih (i + 1) .inTemplateString .inArray "" urls full b deps hdropS
              (fun _ => rfl) ?_ (Or.inr rfl) hurls hrun
            intro _
            exact ⟨i, by simp, by rw [hdrop, h3]; rfl⟩
          · rw [if_neg h3] at hrun
            by_cases h4 : isJsWhitespace c = true
            · rw [if_pos h4] at hrun
              exact ih (i + 1) .inArray prev "" urls full b deps hdropS (fun _ => rfl)
                (fun h => False.elim h) hprev hurls hrun
            · rw [if_neg h4] at hrun
              rw [if_neg (fun h => LexerState.noConfusion h)] at hrun
              by_cases h5 : c = ']'
              · rw [if_pos h5] at hrun
                rw [Except.ok.injEq, Prod.mk.injEq] at hrun
                rw [← hrun.2]
                exact hurls
              · rw [if_neg h5] at hrun
                by_cases h6 : c = ','
                · rw [if_pos h6] at hrun
                  exact ih (i + 1) .inArray prev "" urls full b deps hdropS (fun _ => rfl)
                    (fun h => False.elim h) hprev hurls hrun
                · rw [if_neg h6] at hrun
                  exact absurd hrun (by simp)
    | inSingleQuoteString =>
      obtain ⟨base, hbase, hquote⟩ := hstr trivial
      simp only [lexLoop] at hrun
      by_cases h1 : c = singleQuoteChar
      · rw [if_pos h1] at hrun
        subst h1
        have hdep : GoodDep full
            (HotDep.mk cur (i - cur.length - 1) (i + 1)) := by
          refine ⟨singleQuoteChar, Or.inl rfl, ?_, ?_⟩
          · show i + 1 = i - cur.length - 1 + cur.length + 2
            omega
          · show (full.drop (i - cur.length - 1)).take (cur.length + 2) =
              singleQuoteChar :: cur.data ++ [singleQuoteChar]
            have hstart : i - cur.length - 1 = base := by omega
            rw [hstart, hquote]
            exact take_quote_slice singleQuoteChar singleQuoteChar cur.data rest
        have hgood : ∀ d ∈ addDep urls cur i, GoodDep full d := by
          intro d hd
          simp only [addDep] at hd
          rcases List.mem_append.1 hd with h | h
          · exact hurls d h
          · rw [List.mem_singleton] at h
            rw [h]
            exact hdep
        by_cases hp : prev = LexerState.inCall
        · rw [if_pos hp] at hrun
          rw [Except.ok.injEq, Prod.mk.injEq] at hrun
          rw [← hrun.2]
          exact hgood
        · rw [if_neg hp] at hrun
          refine ih (i + 1) prev prev "" (addDep urls cur i) full b deps hdropS
            (fun _ => rfl) ?_ hprev hgood hrun
          intro hs
          rcases hprev with h | h
          · exact absurd h hp
          · rw [h] at hs
            exact False.elim hs
      · rw [if_neg h1] at hrun
        refine ih (i + 1) .inSingleQuoteString prev (cur.push c) urls full b deps hdropS
          (fun hc => by rcases hc with h | h <;> exact LexerState.noConfusion h) ?_ hprev hurls hrun
        intro _
        refine ⟨base, ?_, ?_⟩
        · rw [push_length]
          omega
        · rw [hquote, push_data]
          rw [List.append_assoc]
          rfl
    | inDoubleQuoteString =>
      obtain ⟨base, hbase, hquote⟩ := hstr trivial
      simp only [lexLoop] at hrun
      by_cases h1 : c = doubleQuoteChar
      · rw [if_pos h1] at hrun
        subst h1
        have hdep : GoodDep full
            (HotDep.mk cur (i - cur.length - 1) (i + 1)) := by
          refine ⟨doubleQuoteChar, Or.inr (Or.inl rfl), ?_, ?_⟩
          · show i + 1 = i - cur.length - 1 + cur.length + 2
            omega
          · show (full.drop (i - cur.length - 1)).take (cur.length + 2) =
              doubleQuoteChar :: cur.data ++ [doubleQuoteChar]
            have hstart : i - cur.length - 1 = base := by omega
            rw [hstart, hquote]
            exact take_quote_slice doubleQuoteChar doubleQuoteChar cur.data rest
        have hgood : ∀ d ∈ addDep urls cur i, GoodDep full d := by
          intro d hd
          simp only [addDep] at hd
          rcases List.mem_append.1 hd with h | h
          · exact hurls d h
          · rw [List.mem_singleton] at h
            rw [h]
            exact hdep
        by_cases hp : prev = LexerState.inCall
        · rw [if_pos hp] at hrun
          rw [Except.ok.injEq, Prod.mk.injEq] at hrun
          rw [← hrun.2]
          exact hgood
        · rw [if_neg hp] at hrun
          refine ih (i + 1) prev prev "" (addDep urls cur i) full b deps hdropS
            (fun _ => rfl) ?_ hprev hgood hrun
          intro hs
          rcases hprev with h | h
          · exact absurd h hp
          · rw [h] at hs
            exact False.elim hs
      · rw [if_neg h1] at hrun
        refine ih (i + 1) .inDoubleQuoteString prev (cur.push c) urls full b deps hdropS
          (fun hc => by rcases hc with h | h <;> exact LexerState.noConfusion h) ?_ hprev hurls hrun
        intro _
        refine ⟨base, ?_, ?_⟩
        · rw [push_length]
          omega
        · rw [hquote, push_data]
          rw [List.append_assoc]
          rfl
    | inTemplateString =>
      obtain ⟨base, hbase, hquote⟩ := hstr trivial
      simp only [lexLoop] at hrun
      by_cases h1 : c = backtickChar
      · rw [if_pos h1] at hrun
        subst h1
        have hdep : GoodDep full
            (HotDep.mk cur (i - cur.length - 1) (i + 1)) := by
          refine ⟨backtickChar, Or.inr (Or.inr rfl), ?_, ?_⟩
          · show i + 1 = i - cur.length - 1 + cur.length + 2
            omega
          · show (full.drop (i - cur.length - 1)).take (cur.length + 2) =
              backtickChar :: cur.data ++ [backtickChar]
            have hstart : i - cur.length - 1 = base := by omega
            rw [hstart, hquote]
            exact take_quote_slice backtickChar backtickChar cur.data rest
        have hgood : ∀ d ∈ addDep urls cur i, GoodDep full d := by
          intro d hd
          simp only [addDep] at hd
          rcases List.mem_append.1 hd with h | h
          · exact hurls d h
          · rw [List.mem_singleton] at h
            rw [h]
            exact hdep
        by_cases hp : prev = LexerState.inCall
        · rw [if_pos hp] at hrun
          rw [Except.ok.injEq, Prod.mk.injEq] at hrun
          rw [← hrun.2]
          exact hgood
        · rw [if_neg hp] at hrun
          refine ih (i + 1) prev prev "" (addDep urls cur i) full b deps hdropS
            (fun _ => rfl) ?_ hprev hgood hrun
          intro hs
          rcases hprev with h | h
          · exact absurd h hp
          · rw [h] at hs
            exact False.elim hs
      · rw [if_neg h1] at hrun
        by_cases h2 : (decide (c = Char.ofNat 36) && decide (rest.head? = some openBraceChar)) = true
        · rw [if_pos h2] at hrun
          exact absurd hrun (by simp)
        · rw [if_neg h2] at hrun
          refine ih (i + 1) .inTemplateString prev (cur.push c) urls full b deps hdropS
            (fun hc => by rcases hc with h | h <;> exact LexerState.noConfusion h) ?_ hprev hurls hrun
          intro _
          refine ⟨base, ?_, ?_⟩
          · rw [push_length]
            omega
          · rw [hquote, push_data]
            rw [List.append_assoc]
            rfl

/-- C10: for every dep recorded by `lexAcceptedHmrDeps` as `{url, start, end}`: the source
character at `start` is an opening quote, the same quote closes the literal at `end - 1`
(one before `end`), the source substring strictly between them equals `url`, and
`end - start = url.length + 2` — stated as: the `url.length + 2`-character slice of the
source at `start` is `q :: url.data ++ [q]` for a quote character `q`, and
`endIdx = start + url.length + 2`. -/
theorem c10_dep_positions (code : String) (start : Nat) (b : Bool) (deps : List HotDep)
    (h : lexAcceptedHmrDeps code start = .ok (b, deps)) :
    ∀ d ∈ deps, GoodDep code.data d :=
  lexLoop_good (code.data.drop start) start .inCall .inCall "" [] code.data b deps rfl
    (fun _ => rfl) (fun hs => False.elim hs) (Or.inl rfl)
    (fun d hd => absurd hd (List.not_mem_nil d)) h

/-- A concrete accept-call argument: `'a')` (single-quoted literal then the closing paren). -/
def c10code : String := String.mk [singleQuoteChar, 'a', singleQuoteChar, ')']

theorem c10_dep_positions_witness :
    lexAcceptedHmrDeps c10code 0 = .ok (false, [HotDep.mk "a" 0 3]) ∧
    GoodDep c10code.data (HotDep.mk "a" 0 3) :=
  ⟨rfl, c10_dep_positions c10code 0 false [HotDep.mk "a" 0 3] rfl
    (HotDep.mk "a" 0 3) (List.mem_singleton.2 rfl)⟩

/-- True when the character list never has the character `$` immediately followed by an
opening brace (which would start a template-literal interpolation). -/
def noDollarBrace : List Char → Bool
  | a :: b :: t => !(decide (a = Char.ofNat 36) && decide (b = openBraceChar)) && noDollarBrace (b :: t)
  | _ => true

/-- Append a list of characters to a string one `push` at a time (as the lexer builds
`currentDep`). -/
def strAppend (s : String) (l : List Char) : String := l.foldl String.push s

theorem strAppend_mk (l : List Char) : ∀ s : String, strAppend s l = String.mk (s.data ++ l) := by
  induction l with
  | nil => intro s; simp [strAppend]
  | cons a as ih =>
    intro s
    show strAppend (s.push a) as = String.mk (s.data ++ a :: as)
    rw [ih (s.push a)]
    show String.mk ((s.data ++ [a]) ++ as) = String.mk (s.data ++ a :: as)
    rw [List.append_assoc]
    rfl

theorem skip_inCall (ws : List Char) : ∀ (tl : List Char) (i : Nat) (prev : LexerState)
    (cur : String) (urls : List HotDep), (∀ c ∈ ws, isJsWhitespace c = true) →
    lexLoop (ws ++ tl) i .inCall prev cur urls = lexLoop tl (i + ws.length) .inCall prev cur urls := by
  induction ws with
  | nil => intro tl i prev cur urls _; rfl
  | cons c cs ih =>
    intro tl i prev cur urls hws
    have hw : isJsWhitespace c = true := hws c (List.mem_cons_self c cs)
    show lexLoop (c :: (cs ++ tl)) i .inCall prev cur urls = _
    simp only [lexLoop]
    rw [if_neg (fun he => absurd (he ▸ hw) (by decide))]
    rw [if_neg (fun he => absurd (he ▸ hw) (by decide))]
    rw [if_neg (fun he => absurd (he ▸ hw) (by decide))]
    rw [if_pos hw]
    rw [ih tl (i + 1) prev cur urls (fun d hd => hws d (List.mem_cons_of_mem c hd))]
    have hidx : i + 1 + cs.length = i + (cs.length + 1) := by omega
    rw [hidx]
    rfl

theorem skip_inArray (ws : List Char) : ∀ (tl : List Char) (i : Nat) (prev : LexerState)
    (cur : String) (urls : List HotDep), (∀ c ∈ ws, isJsWhitespace c = true ∨ c = ',') →
    lexLoop (ws ++ tl) i .inArray prev cur urls = lexLoop tl (i + ws.length) .inArray prev cur urls := by
  induction ws with
  | nil => intro tl i prev cur urls _; rfl
  | cons c cs ih =>
    intro tl i prev cur urls hws
    have hw : isJsWhitespace c = true ∨ c = ',' := hws c (List.mem_cons_self c cs)
    have hnq1 : ¬c = singleQuoteChar := by
      rcases hw with h | h
      · exact fun he => absurd (he ▸ h) (by decide)
      · rw [h]; decide
    have hnq2 : ¬c = doubleQuoteChar := by
      rcases hw with h | h
      · exact fun he => absurd (he ▸ h) (by decide)
      · rw [h]; decide
    have hnq3 : ¬c = backtickChar := by
      rcases hw with h | h
      · exact fun he => absurd (he ▸ h) (by decide)
      · rw [h]; decide
    show lexLoop (c :: (cs ++ tl)) i .inArray prev cur urls = _
    simp only [lexLoop]
    rw [if_neg hnq1, if_neg hnq2, if_neg hnq3]
    have hrest : ∀ c ∈ cs, isJsWhitespace c = true ∨ c = ',' :=
      fun d hd => hws d (List.mem_cons_of_mem c hd)
    have hidx : i + 1 + cs.length = i + (cs.length + 1) := by omega
    rcases hw with h | h
    · rw [if_pos h]
      rw [ih tl (i + 1) prev cur urls hrest, hidx]
      rfl
    · rw [if_neg (by rw [h]; decide)]
      rw [if_neg (fun he => LexerState.noConfusion he)]
      rw [if_neg (by rw [h]; decide)]
      rw [if_pos h]
      rw [ih tl (i + 1) prev cur urls hrest, hidx]
      rfl

theorem consume_single (lit : List Char) : ∀ (tl : List Char) (i : Nat) (prev : LexerState)
    (cur : String) (urls : List HotDep), singleQuoteChar ∉ lit →
    lexLoop (lit ++ singleQuoteChar :: tl) i .inSingleQuoteString prev cur urls =
      if prev = .inCall then .ok (false, addDep urls (strAppend cur lit) (i + lit.length))
      else lexLoop tl (i + lit.length + 1) prev prev "" (addDep urls (strAppend cur lit) (i + lit.length)) := by
  induction lit with
  | nil =>
    intro tl i prev cur urls _
    show lexLoop (singleQuoteChar :: tl) i .inSingleQuoteString prev cur urls = _
    simp only [lexLoop]
    rw [if_pos trivial]
    rfl
  | cons a as ih =>
    intro tl i prev cur urls hnotin
    have hna : ¬a = singleQuoteChar := fun he => hnotin (he ▸ List.mem_cons_self a as)
    show lexLoop (a :: (as ++ singleQuoteChar :: tl)) i .inSingleQuoteString prev cur urls = _
    simp only [lexLoop]
    rw [if_neg hna]
    rw [ih tl (i + 1) prev (cur.push a) urls (fun hm => hnotin (List.mem_cons_of_mem a hm))]
    have hidx : i + 1 + as.length = i + (as.length + 1) := by omega
    rw [hidx]
    rfl

theorem consume_double (lit : List Char) : ∀ (tl : List Char) (i : Nat) (prev : LexerState)
    (cur : String) (urls : List HotDep), doubleQuoteChar ∉ lit →
    lexLoop (lit ++ doubleQuoteChar :: tl) i .inDoubleQuoteString prev cur urls =
      if prev = .inCall then .ok (false, addDep urls (strAppend cur lit) (i + lit.length))
      else lexLoop tl (i + lit.length + 1) prev prev "" (addDep urls (strAppend cur lit) (i + lit.length)) := by
  induction lit with
  | nil =>
    intro tl i prev cur urls _
    show lexLoop (doubleQuoteChar :: tl) i .inDoubleQuoteString prev cur urls = _
    simp only [lexLoop]
    rw [if_pos trivial]
    rfl
  | cons a as ih =>
    intro tl i prev cur urls hnotin
    have hna : ¬a = doubleQuoteChar := fun he => hnotin (he ▸ List.mem_cons_self a as)
    show lexLoop (a :: (as ++ doubleQuoteChar :: tl)) i .inDoubleQuoteString prev cur urls = _
    simp only [lexLoop]
    rw [if_neg hna]
    rw [ih tl (i + 1) prev (cur.push a) urls (fun hm => hnotin (List.mem_cons_of_mem a hm))]
    have hidx : i + 1 + as.length = i + (as.length + 1) := by omega
    rw [hidx]
    rfl

theorem consume_template (lit : List Char) : ∀ (tl : List Char) (i : Nat) (prev : LexerState)
    (cur : String) (urls : List HotDep), backtickChar ∉ lit → noDollarBrace lit = true →
    lexLoop (lit ++ backtickChar :: tl) i .inTemplateString prev cur urls =
      if prev = .inCall then .ok (false, addDep urls (strAppend cur lit) (i + lit.length))
      else lexLoop tl (i + lit.length + 1) prev prev "" (addDep urls (strAppend cur lit) (i + lit.length)) := by
  induction lit with
  | nil =>
    intro tl i prev cur urls _ _
    show lexLoop (backtickChar :: tl) i .inTemplateString prev cur urls = _
    simp only [lexLoop]
    rw [if_pos trivial]
    rfl
  | cons a as ih =>
    intro tl i prev cur urls hnotin hndb
    have hna : ¬a = backtickChar := fun he => hnotin (he ▸ List.mem_cons_self a as)
    show lexLoop (a :: (as ++ backtickChar :: tl)) i .inTemplateString prev cur urls = _
    simp only [lexLoop]
    rw [if_neg hna]
    have hcond : (decide (a = Char.ofNat 36) && decide ((as ++ backtickChar :: tl).head? = some openBraceChar)) = false := by
      cases as with
      | nil =>
        show (decide (a = Char.ofNat 36) && decide (backtickChar = openBraceChar)) = false
        rw [show decide (backtickChar = openBraceChar) = false from by decide]
        rw [Bool.and_false]
      | cons b bs =>
        have hpair : ¬(a = Char.ofNat 36 ∧ b = openBraceChar) := by
          intro hq
          have h2 : (!(decide (a = Char.ofNat 36) && decide (b = openBraceChar)) &&
              noDollarBrace (b :: bs)) = true := hndb
          rw [decide_eq_true hq.1, decide_eq_true hq.2] at h2
          simp at h2
        by_cases ha : a = Char.ofNat 36
        · have hb : ¬b = openBraceChar := fun hbq => hpair ⟨ha, hbq⟩
          have hh : decide ((b :: (bs ++ backtickChar :: tl)).head? = some openBraceChar) = false := by
            apply decide_eq_false
            intro hsome
            exact hb (Option.some.inj hsome)
          rw [show ((b :: bs) ++ backtickChar :: tl) = b :: (bs ++ backtickChar :: tl) from rfl]
          rw [hh, Bool.and_false]
        · rw [decide_eq_false ha, Bool.false_and]
    rw [hcond]
    rw [if_neg (by decide : ¬(false = true))]
    rw [ih tl (i + 1) prev (cur.push a) urls (fun hm => hnotin (List.mem_cons_of_mem a hm)) (by
      cases as with
      | nil => rfl
      | cons b bs =>
        have h2 := hndb
        simp only [noDollarBrace, Bool.and_eq_true] at h2
        exact h2.2)]
    have hidx : i + 1 + as.length = i + (as.length + 1) := by omega
    rw [hidx]
    rfl

/-- Render one array item list: each item is (padding, quote, literal characters), laid out
as `pad ++ quote ++ literal ++ quote`. -/
def itemsRender : List (List Char × Char × List Char) → List Char
  | [] => []
  | (pad, q, lit) :: t => pad ++ q :: (lit ++ q :: itemsRender t)

/-- A syntactically valid array item: the padding is whitespace or commas, the quote is one
of the three string delimiters, and the literal does not contain its own delimiter (nor a
template interpolation when backtick-quoted). -/
def ValidItem (it : List Char × Char × List Char) : Prop :=
  (∀ c ∈ it.1, isJsWhitespace c = true ∨ c = ',') ∧
  ((it.2.1 = singleQuoteChar ∧ singleQuoteChar ∉ it.2.2) ∨
   (it.2.1 = doubleQuoteChar ∧ doubleQuoteChar ∉ it.2.2) ∨
   (it.2.1 = backtickChar ∧ backtickChar ∉ it.2.2 ∧ noDollarBrace it.2.2 = true))

theorem itemsLoop (items : List (List Char × Char × List Char)) :
    ∀ (tailPad tl : List Char) (i : Nat) (prev : LexerState) (urls : List HotDep),
    (∀ it ∈ items, ValidItem it) →
    (∀ c ∈ tailPad, isJsWhitespace c = true ∨ c = ',') →
    ∃ newdeps : List HotDep,
      lexLoop (itemsRender items ++ (tailPad ++ ']' :: tl)) i .inArray prev "" urls =
        .ok (false, urls ++ newdeps) ∧
      newdeps.map HotDep.url = items.map (fun it => String.mk it.2.2) := by
  induction items with
  | nil =>
    intro tailPad tl i prev urls _ htail
    refine ⟨[], ?_, rfl⟩
    rw [List.append_nil]
    show lexLoop (tailPad ++ ']' :: tl) i .inArray prev "" urls = _
    rw [skip_inArray tailPad (']' :: tl) i prev "" urls htail]
    show lexLoop (']' :: tl) (i + tailPad.length) .inArray prev "" urls = _
    simp only [lexLoop]
    rw [if_neg (by decide : ¬(']' = singleQuoteChar))]
    rw [if_neg (by decide : ¬(']' = doubleQuoteChar))]
    rw [if_neg (by decide : ¬(']' = backtickChar))]
    rw [if_neg (by decide : ¬(isJsWhitespace ']' = true))]
    rw [if_neg (fun he => LexerState.noConfusion he)]
    rw [if_pos trivial]
  | cons it t ih =>
    intro tailPad tl i prev urls hvalid htail
    obtain ⟨pad, q, lit⟩ := it
    have hv := hvalid _ (List.mem_cons_self _ t)
    have hvt : ∀ x ∈ t, ValidItem x := fun x hx => hvalid x (List.mem_cons_of_mem _ hx)
    have hpad : ∀ c ∈ pad, isJsWhitespace c = true ∨ c = ',' := hv.1
    show ∃ newdeps, lexLoop ((pad ++ q :: (lit ++ q :: itemsRender t)) ++ (tailPad ++ ']' :: tl))
        i .inArray prev "" urls = .ok (false, urls ++ newdeps) ∧
      newdeps.map HotDep.url = (String.mk lit) :: t.map (fun x => String.mk x.2.2)
    rw [List.append_assoc]
    rw [skip_inArray pad _ i prev "" urls hpad]
    show ∃ newdeps, lexLoop (q :: ((lit ++ q :: itemsRender t) ++ (tailPad ++ ']' :: tl)))
        (i + pad.length) .inArray prev "" urls = .ok (false, urls ++ newdeps) ∧ _
    rw [List.append_assoc lit]
    have harr : ((q :: itemsRender t) ++ (tailPad ++ ']' :: tl)) =
        q :: (itemsRender t ++ (tailPad ++ ']' :: tl)) := rfl
    rw [harr]
    rcases hv.2 with ⟨hq, hnin⟩ | ⟨hq, hnin⟩ | ⟨hq, hnin, hndb⟩
    · subst hq
      have hstep : lexLoop (singleQuoteChar ::
          (lit ++ singleQuoteChar :: (itemsRender t ++ (tailPad ++ ']' :: tl))))
          (i + pad.length) .inArray prev "" urls =
          lexLoop (lit ++ singleQuoteChar :: (itemsRender t ++ (tailPad ++ ']' :: tl)))
          (i + pad.length + 1) .inSingleQuoteString .inArray "" urls := by
        simp only [lexLoop]
        rw [if_pos trivial]
      rw [hstep, consume_single lit _ _ .inArray "" urls hnin]
      rw [if_neg (fun he => LexerState.noConfusion he)]
      obtain ⟨nd, hnd, hmap⟩ := ih (tailPad) tl (i + pad.length + 1 + lit.length + 1) .inArray
        (addDep urls (strAppend "" lit) (i + pad.length + 1 + lit.length)) hvt htail
      refine ⟨{ url := strAppend "" lit, start := i + pad.length + 1 + lit.length -
        (strAppend "" lit).length - 1, endIdx := i + pad.length + 1 + lit.length + 1 } :: nd, ?_, ?_⟩
      · rw [hnd]
        rw [show addDep urls (strAppend "" lit) (i + pad.length + 1 + lit.length) ++ nd =
          urls ++ ({ url := strAppend "" lit, start := i + pad.length + 1 + lit.length -
            (strAppend "" lit).length - 1, endIdx := i + pad.length + 1 + lit.length + 1 } :: nd)
          from by rw [addDep, List.append_assoc]; rfl]
      · show (strAppend "" lit) :: nd.map HotDep.url = _
        rw [hmap, strAppend_mk]
        rfl
    · subst hq
      have hstep : lexLoop (doubleQuoteChar ::
          (lit ++ doubleQuoteChar :: (itemsRender t ++ (tailPad ++ ']' :: tl))))
          (i + pad.length) .inArray prev "" urls =
          lexLoop (lit ++ doubleQuoteChar :: (itemsRender t ++ (tailPad ++ ']' :: tl)))
          (i + pad.length + 1) .inDoubleQuoteString .inArray "" urls := by
        simp only [lexLoop]
        rw [if_neg (by decide : ¬(doubleQuoteChar = singleQuoteChar))]
        rw [if_pos trivial]
      rw [hstep, consume_double lit _ _ .inArray "" urls hnin]
      rw [if_neg (fun he => LexerState.noConfusion he)]
      obtain ⟨nd, hnd, hmap⟩ := ih (tailPad) tl (i + pad.length + 1 + lit.length + 1) .inArray
        (addDep urls (strAppend "" lit) (i + pad.length + 1 + lit.length)) hvt htail
      refine ⟨{ url := strAppend "" lit, start := i + pad.length + 1 + lit.length -
        (strAppend "" lit).length - 1, endIdx := i + pad.length + 1 + lit.length + 1 } :: nd, ?_, ?_⟩
      · rw [hnd]
        rw [show addDep urls (strAppend "" lit) (i + pad.length + 1 + lit.length) ++ nd =
          urls ++ ({ url := strAppend "" lit, start := i + pad.length + 1 + lit.length -
            (strAppend "" lit).length - 1, endIdx := i + pad.length + 1 + lit.length + 1 } :: nd)
          from by rw [addDep, List.append_assoc]; rfl]
      · show (strAppend "" lit) :: nd.map HotDep.url = _
        rw [hmap, strAppend_mk]
        rfl
    · subst hq
      have hstep : lexLoop (backtickChar ::
          (lit ++ backtickChar :: (itemsRender t ++ (tailPad ++ ']' :: tl))))
          (i + pad.length) .inArray prev "" urls =
          lexLoop (lit ++ backtickChar :: (itemsRender t ++ (tailPad ++ ']' :: tl)))
          (i + pad.length + 1) .inTemplateString .inArray "" urls := by
        simp only [lexLoop]
        rw [if_neg (by decide : ¬(backtickChar = singleQuoteChar))]
        rw [if_neg (by decide : ¬(backtickChar = doubleQuoteChar))]
        rw [if_pos trivial]
      rw [hstep, consume_template lit _ _ .inArray "" urls hnin hndb]
      rw [if_neg (fun he => LexerState.noConfusion he)]
      obtain ⟨nd, hnd, hmap⟩ := ih (tailPad) tl (i + pad.length + 1 + lit.length + 1) .inArray
        (addDep urls (strAppend "" lit) (i + pad.length + 1 + lit.length)) hvt htail
      refine ⟨{ url := strAppend "" lit, start := i + pad.length + 1 + lit.length -
        (strAppend "" lit).length - 1, endIdx := i + pad.length + 1 + lit.length + 1 } :: nd, ?_, ?_⟩
      · rw [hnd]
        rw [show addDep urls (strAppend "" lit) (i + pad.length + 1 + lit.length) ++ nd =
          urls ++ ({ url := strAppend "" lit, start := i + pad.length + 1 + lit.length -
            (strAppend "" lit).length - 1, endIdx := i + pad.length + 1 + lit.length + 1 } :: nd)
          from by rw [addDep, List.append_assoc]; rfl]
      · show (strAppend "" lit) :: nd.map HotDep.url = _
        rw [hmap, strAppend_mk]
        rfl

/-- C5: accept-dep lexer round-trip. (1) For every source whose characters from `start`
form a syntactically valid array form — optional whitespace, `[`, then quoted literals
separated/surrounded by whitespace and commas, then `]` — `lexAcceptedHmrDeps` returns
`false` (not self-accepting) and records exactly those literals in source order. (2) For
every callback-only form — optional whitespace then a first character that is neither a
string delimiter nor `[` — it returns `true` and records no urls. -/
theorem c5_lexer_round_trip :
    (∀ (code : String) (start : Nat) (ws0 : List Char)
        (items : List (List Char × Char × List Char)) (tailPad rest : List Char),
      code.data.drop start = ws0 ++ '[' :: (itemsRender items ++ (tailPad ++ ']' :: rest)) →
      (∀ c ∈ ws0, isJsWhitespace c = true) →
      (∀ it ∈ items, ValidItem it) →
      (∀ c ∈ tailPad, isJsWhitespace c = true ∨ c = ',') →
      ∃ deps, lexAcceptedHmrDeps code start = .ok (false, deps) ∧
        deps.map HotDep.url = items.map (fun it => String.mk it.2.2)) ∧
    (∀ (code : String) (start : Nat) (ws0 : List Char) (c : Char) (rest : List Char),
      code.data.drop start = ws0 ++ c :: rest →
      (∀ w ∈ ws0, isJsWhitespace w = true) →
      c ≠ singleQuoteChar → c ≠ doubleQuoteChar → c ≠ backtickChar →
      isJsWhitespace c = false → c ≠ '[' →
      lexAcceptedHmrDeps code start = .ok (true, [])) := by
  constructor
  · intro code start ws0 items tailPad rest hdrop hws hvalid htail
    show ∃ deps, lexLoop (code.data.drop start) start .inCall .inCall "" [] =
      .ok (false, deps) ∧ _
    rw [hdrop, skip_inCall ws0 _ start .inCall "" [] hws]
    have hstep : lexLoop ('[' :: (itemsRender items ++ (tailPad ++ ']' :: rest)))
        (start + ws0.length) .inCall .inCall "" [] =
        lexLoop (itemsRender items ++ (tailPad ++ ']' :: rest))
        (start + ws0.length + 1) .inArray .inCall "" [] := by
      simp only [lexLoop]
      rw [if_neg (by decide : ¬('[' = singleQuoteChar))]
      rw [if_neg (by decide : ¬('[' = doubleQuoteChar))]
      rw [if_neg (by decide : ¬('[' = backtickChar))]
      rw [if_neg (by decide : ¬(isJsWhitespace '[' = true))]
      rw [if_pos trivial]
      rw [if_pos trivial]
    rw [hstep]
    obtain ⟨nd, hnd, hmap⟩ := itemsLoop items tailPad rest (start + ws0.length + 1) .inCall
      [] hvalid htail
    exact ⟨nd, hnd, hmap⟩
  · intro code start ws0 c rest hdrop hws h1 h2 h3 h4 h5
    show lexLoop (code.data.drop start) start .inCall .inCall "" [] = _
    rw [hdrop, skip_inCall ws0 _ start .inCall "" [] hws]
    show lexLoop (c :: rest) (start + ws0.length) .inCall .inCall "" [] = _
    simp only [lexLoop]
    rw [if_neg h1, if_neg h2, if_neg h3]
    rw [if_neg (fun he : isJsWhitespace c = true => absurd (h4 ▸ he) (by simp))]
    rw [if_pos trivial]
    rw [if_neg h5]

/-- A concrete array-form accept argument: `["a","b"])`. -/
def c5arr : String :=
  String.mk ['[', doubleQuoteChar, 'a', doubleQuoteChar, ',',
    doubleQuoteChar, 'b', doubleQuoteChar, ']', ')']

/-- A concrete callback-form accept argument: ` cb)`. -/
def c5cb : String := String.mk [' ', 'c', 'b', ')']

theorem c5_lexer_round_trip_witness :
    (∃ deps, lexAcceptedHmrDeps c5arr 0 = .ok (false, deps) ∧
      deps.map HotDep.url = ["a", "b"]) ∧
    lexAcceptedHmrDeps c5cb 0 = .ok (true, []) :=
  ⟨c5_lexer_round_trip.1 c5arr 0 []
      [([], doubleQuoteChar, ['a']), ([','], doubleQuoteChar, ['b'])] [] [')']
      rfl (by decide)
      (by
        intro it hit
        rcases List.mem_cons.1 hit with rfl | hit
        · exact ⟨by decide, Or.inr (Or.inl ⟨rfl, by decide⟩)⟩
        rcases List.mem_cons.1 hit with rfl | hit
        · exact ⟨by decide, Or.inr (Or.inl ⟨rfl, by decide⟩)⟩
        · exact absurd hit (List.not_mem_nil it))
      (by decide),
    c5_lexer_round_trip.2 c5cb 0 [' '] 'c' ['b', ')'] rfl (by decide)
      (by decide) (by decide) (by decide) (by decide) (by decide)⟩

/-- The dead-end situations of `propagateUpdate` at a node with a given current chain:
the node is not self-accepting and (no importers / non-CSS with all-CSS importers /
a non-accepting importer already in the chain / some non-accepting importer not in the
chain leads recursively to a dead end). -/
inductive DeadEndP (g : Nat → NodeData) : Nat → List Nat → Prop
  | noImp (n : Nat) (chain : List Nat) :
      (g n).isSelfAccepting = false → (g n).importers = [] → DeadEndP g n chain
  | allCss (n : Nat) (chain : List Nat) :
      (g n).isSelfAccepting = false → (g n).importers ≠ [] →
      (!(isCSSRequest (g n).url) &&
        (g n).importers.all (fun i => isCSSRequest (g i).url)) = true →
      DeadEndP g n chain
  | cyc (n : Nat) (chain : List Nat) (imp : Nat) :
      (g n).isSelfAccepting = false → (g n).importers ≠ [] →
      (!(isCSSRequest (g n).url) &&
        (g n).importers.all (fun i => isCSSRequest (g i).url)) = false →
      imp ∈ (g n).importers → n ∉ (g imp).acceptedHmrDeps → imp ∈ chain →
      DeadEndP g n chain
  | step (n : Nat) (chain : List Nat) (imp : Nat) :
      (g n).isSelfAccepting = false → (g n).importers ≠ [] →
      (!(isCSSRequest (g n).url) &&
        (g n).importers.all (fun i => isCSSRequest (g i).url)) = false →
      imp ∈ (g n).importers → n ∉ (g imp).acceptedHmrDeps → imp ∉ chain →
      DeadEndP g imp (chain ++ [imp]) → DeadEndP g n chain

theorem cssLoop_mono (g : Nat → NodeData)
    (rc : Nat → List (Nat × Nat) → List Nat → Option (Bool × List (Nat × Nat)))
    (hrec : ∀ n bs chain r, rc n bs chain = some r → ∀ x ∈ bs, x ∈ r.2) :
    ∀ (lst : List Nat) (bs : List (Nat × Nat)) (chain : List Nat) (bs' : List (Nat × Nat)),
    cssImporterLoop g rc lst bs chain = some bs' → ∀ x ∈ bs, x ∈ bs' := by
  intro lst
  induction lst with
  | nil =>
    intro bs chain bs' h x hx
    exact (Option.some.inj h) ▸ hx
  | cons imp restL ih =>
    intro bs chain bs' h x hx
    simp only [cssImporterLoop] at h
    by_cases hc : (isCSSRequest (g imp).url && !(chain.contains imp)) = true
    · rw [if_pos hc] at h
      cases hr : rc imp bs (chain ++ [imp]) with
      | none => rw [hr] at h; exact absurd h (by simp)
      | some r =>
        obtain ⟨rb, rbs⟩ := r
        rw [hr] at h
        exact ih rbs chain bs' h x (hrec imp bs (chain ++ [imp]) (rb, rbs) hr x hx)
    · rw [if_neg hc] at h
      exact ih bs chain bs' h x hx

theorem importerLoop_mono (g : Nat → NodeData)
    (rc : Nat → List (Nat × Nat) → List Nat → Option (Bool × List (Nat × Nat)))
    (node : Nat)
    (hrec : ∀ n bs chain r, rc n bs chain = some r → ∀ x ∈ bs, x ∈ r.2) :
    ∀ (lst : List Nat) (bs : List (Nat × Nat)) (chain : List Nat) (r : Bool × List (Nat × Nat)),
    importerLoop g rc node lst bs chain = some r → ∀ x ∈ bs, x ∈ r.2 := by
  intro lst
  induction lst with
  | nil =>
    intro bs chain r h x hx
    rw [← Option.some.inj h]
    exact hx
  | cons a restL ih =>
    intro bs chain r h x hx
    simp only [importerLoop] at h
    by_cases ha : node ∈ (g a).acceptedHmrDeps
    · rw [if_pos ha] at h
      exact ih (bs ++ [(a, node)]) chain r h x (List.mem_append_left _ hx)
    · rw [if_neg ha] at h
      by_cases hch : a ∈ chain
      · rw [if_pos hch] at h
        rw [← Option.some.inj h]
        exact hx
      · rw [if_neg hch] at h
        cases hr : rc a bs (chain ++ [a]) with
        | none => rw [hr] at h; exact absurd h (by simp)
        | some rr =>
          obtain ⟨rb, rbs⟩ := rr
          rw [hr] at h
          cases rb with
          | true =>
            rw [← Option.some.inj h]
            exact hrec a bs (chain ++ [a]) (true, rbs) hr x hx
          | false =>
            exact ih rbs chain r h x (hrec a bs (chain ++ [a]) (false, rbs) hr x hx)

theorem propagate_mono (g : Nat → NodeData) :
    ∀ (fuel node : Nat) (bs : List (Nat × Nat)) (chain : List Nat)
      (r : Bool × List (Nat × Nat)),
    propagateFuel g fuel node bs chain = some r → ∀ x ∈ bs, x ∈ r.2 := by
  intro fuel
  induction fuel with
  | zero =>
    intro node bs chain r h
    exact absurd h (by simp [propagateFuel])
  | succ f ih =>
    intro node bs chain r h x hx
    simp only [propagateFuel] at h
    by_cases hsa : (g node).isSelfAccepting = true
    · rw [if_pos hsa] at h
      cases hr : cssImporterLoop g (propagateFuel g f) (g node).importers
          (bs ++ [(node, node)]) chain with
      | none => rw [hr] at h; exact absurd h (by simp)
      | some bs2 =>
        rw [hr] at h
        have hmem := cssLoop_mono g (propagateFuel g f)
          (fun n b2 c2 r2 hh => ih n b2 c2 r2 hh) (g node).importers
          (bs ++ [(node, node)]) chain bs2 hr x (List.mem_append_left _ hx)
        rw [← Option.some.inj h]
        exact hmem
    · rw [if_neg hsa] at h
      by_cases hni : (g node).importers = []
      · rw [if_pos hni] at h
        rw [← Option.some.inj h]
        exact hx
      · rw [if_neg hni] at h
        by_cases hcss : (!(isCSSRequest (g node).url) &&
            (g node).importers.all (fun i => isCSSRequest (g i).url)) = true
        · rw [if_pos hcss] at h
          rw [← Option.some.inj h]
          exact hx
        · rw [if_neg hcss] at h
          exact importerLoop_mono g (propagateFuel g f) node
            (fun n b2 c2 r2 hh => ih n b2 c2 r2 hh) (g node).importers bs chain r h x hx

theorem importerLoop_forced (g : Nat → NodeData)
    (rc : Nat → List (Nat × Nat) → List Nat → Option (Bool × List (Nat × Nat)))
    (node imp : Nat) (chain : List Nat)
    (hacc : node ∉ (g imp).acceptedHmrDeps)
    (hforce : imp ∈ chain ∨ ∀ bs2 r, rc imp bs2 (chain ++ [imp]) = some r → r.1 = true) :
    ∀ (lst : List Nat) (bs : List (Nat × Nat)) (r : Bool × List (Nat × Nat)),
    imp ∈ lst → importerLoop g rc node lst bs chain = some r → r.1 = true := by
  intro lst
  induction lst with
  | nil =>
    intro bs r hmem
    exact absurd hmem (List.not_mem_nil imp)
  | cons a restL ih =>
    intro bs r hmem h
    simp only [importerLoop] at h
    by_cases ha : node ∈ (g a).acceptedHmrDeps
    · rw [if_pos ha] at h
      have hmem' : imp ∈ restL := by
        rcases List.mem_cons.1 hmem with heq | hm
        · exact absurd (heq ▸ ha) hacc
        · exact hm
      exact ih (bs ++ [(a, node)]) r hmem' h
    · rw [if_neg ha] at h
      by_cases hch : a ∈ chain
      · rw [if_pos hch] at h
        rw [← Option.some.inj h]
      · rw [if_neg hch] at h
        cases hr : rc a bs (chain ++ [a]) with
        | none => rw [hr] at h; exact absurd h (by simp)
        | some rr =>
          obtain ⟨rb, rbs⟩ := rr
          rw [hr] at h
          cases rb with
          | true => rw [← Option.some.inj h]
          | false =>
            rcases List.mem_cons.1 hmem with heq | hm
            · subst heq
              rcases hforce with hc | hf
              · exact absurd hc hch
              · have hres := hf bs (false, rbs) hr
                exact absurd hres (by simp)
            · exact ih rbs r hm h

theorem dead_end_forces_true (g : Nat → NodeData) :
    ∀ {node : Nat} {chain : List Nat}, DeadEndP g node chain →
    ∀ (fuel : Nat) (bs : List (Nat × Nat)) (r : Bool × List (Nat × Nat)),
    propagateFuel g fuel node bs chain = some r → r.1 = true := by
  intro node chain hde
  induction hde with
  | noImp n c hsa hni =>
    intro fuel bs r h
    cases fuel with
    | zero => exact absurd h (by simp [propagateFuel])
    | succ f =>
      simp only [propagateFuel] at h
      rw [if_neg (by rw [hsa]; simp)] at h
      rw [if_pos hni] at h
      rw [← Option.some.inj h]
  | allCss n c hsa hne hcss =>
    intro fuel bs r h
    cases fuel with
    | zero => exact absurd h (by simp [propagateFuel])
    | succ f =>
      simp only [propagateFuel] at h
      rw [if_neg (by rw [hsa]; simp)] at h
      rw [if_neg hne] at h
      rw [if_pos hcss] at h
      rw [← Option.some.inj h]
  | cyc n c imp hsa hne hcss hmem hacc hch =>
    intro fuel bs r h
    cases fuel with
    | zero => exact absurd h (by simp [propagateFuel])
    | succ f =>
      simp only [propagateFuel] at h
      rw [if_neg (by rw [hsa]; simp)] at h
      rw [if_neg hne] at h
      rw [if_neg (by rw [hcss]; simp)] at h
      exact importerLoop_forced g (propagateFuel g f) n imp c hacc (Or.inl hch)
        (g n).importers bs r hmem h
  | step n c imp hsa hne hcss hmem hacc hch hde2 ihrec =>
    intro fuel bs r h
    cases fuel with
    | zero => exact absurd h (by simp [propagateFuel])
    | succ f =>
      simp only [propagateFuel] at h
      rw [if_neg (by rw [hsa]; simp)] at h
      rw [if_neg hne] at h
      rw [if_neg (by rw [hcss]; simp)] at h
      exact importerLoop_forced g (propagateFuel g f) n imp c hacc
        (Or.inr (fun bs2 r2 hh => ihrec f bs2 r2 hh))
        (g n).importers bs r hmem h

theorem importerLoop_true_cases (g : Nat → NodeData) (f : Nat) (node : Nat) (chain : List Nat)
    (hstep : ∀ (m : Nat) (bs2 : List (Nat × Nat)) (r : Bool × List (Nat × Nat)),
      propagateFuel g f m bs2 (chain ++ [m]) = some r → r.1 = true →
      DeadEndP g m (chain ++ [m])) :
    ∀ (lst : List Nat) (bs bs' : List (Nat × Nat)),
    importerLoop g (propagateFuel g f) node lst bs chain = some (true, bs') →
    ∃ imp ∈ lst, node ∉ (g imp).acceptedHmrDeps ∧
      (imp ∈ chain ∨ (imp ∉ chain ∧ DeadEndP g imp (chain ++ [imp]))) := by
  intro lst
  induction lst with
  | nil =>
    intro bs bs' h
    exact absurd (congrArg Prod.fst (Option.some.inj h)) (by simp)
  | cons a restL ih =>
    intro bs bs' h
    simp only [importerLoop] at h
    by_cases ha : node ∈ (g a).acceptedHmrDeps
    · rw [if_pos ha] at h
      obtain ⟨imp, hm, hrest⟩ := ih (bs ++ [(a, node)]) bs' h
      exact ⟨imp, List.mem_cons_of_mem a hm, hrest⟩
    · rw [if_neg ha] at h
      by_cases hch : a ∈ chain
      · rw [if_pos hch] at h
        exact ⟨a, List.mem_cons_self a restL, ha, Or.inl hch⟩
      · rw [if_neg hch] at h
        cases hr : propagateFuel g f a bs (chain ++ [a]) with
        | none => rw [hr] at h; exact absurd h (by simp)
        | some rr =>
          obtain ⟨rb, rbs⟩ := rr
          rw [hr] at h
          cases rb with
          | true =>
            exact ⟨a, List.mem_cons_self a restL, ha,
              Or.inr ⟨hch, hstep a bs (true, rbs) hr rfl⟩⟩
          | false =>
            obtain ⟨imp, hm, hrest⟩ := ih rbs bs' h
            exact ⟨imp, List.mem_cons_of_mem a hm, hrest⟩

theorem propagate_true_dead (g : Nat → NodeData) :
    ∀ (fuel node : Nat) (bs : List (Nat × Nat)) (chain : List Nat) (bs' : List (Nat × Nat)),
    propagateFuel g fuel node bs chain = some (true, bs') → DeadEndP g node chain := by
  intro fuel
  induction fuel with
  | zero =>
    intro node bs chain bs' h
    exact absurd h (by simp [propagateFuel])
  | succ f ih =>
    intro node bs chain bs' h
    simp only [propagateFuel] at h
    by_cases hsa : (g node).isSelfAccepting = true
    · rw [if_pos hsa] at h
      cases hr : cssImporterLoop g (propagateFuel g f) (g node).importers
          (bs ++ [(node, node)]) chain with
      | none => rw [hr] at h; exact absurd h (by simp)
      | some bs2 =>
        rw [hr] at h
        exact absurd (congrArg Prod.fst (Option.some.inj h)) (by simp)
    · rw [if_neg hsa] at h
      have hsa' : (g node).isSelfAccepting = false := by
        revert hsa
        cases (g node).isSelfAccepting <;> simp
      by_cases hni : (g node).importers = []
      · exact DeadEndP.noImp node chain hsa' hni
      · rw [if_neg hni] at h
        by_cases hcss : (!(isCSSRequest (g node).url) &&
            (g node).importers.all (fun i => isCSSRequest (g i).url)) = true
        · exact DeadEndP.allCss node chain hsa' hni hcss
        · rw [if_neg hcss] at h
          have hcss' : (!(isCSSRequest (g node).url) &&
              (g node).importers.all (fun i => isCSSRequest (g i).url)) = false := by
            revert hcss
            cases (!(isCSSRequest (g node).url) &&
              (g node).importers.all (fun i => isCSSRequest (g i).url)) <;> simp
          obtain ⟨imp, hmem, hacc, hrest⟩ := importerLoop_true_cases g f node chain
            (fun m bs2 r hh ht => by
              obtain ⟨rb, rbs⟩ := r
              cases ht
              exact ih m bs2 (chain ++ [m]) rbs hh)
            (g node).importers bs bs' h
          rcases hrest with hch | ⟨hnotin, hde⟩
          · exact DeadEndP.cyc node chain imp hsa' hni hcss' hmem hacc hch
          · exact DeadEndP.step node chain imp hsa' hni hcss' hmem hacc hnotin hde

theorem importerLoop_boundary (g : Nat → NodeData)
    (rc : Nat → List (Nat × Nat) → List Nat → Option (Bool × List (Nat × Nat)))
    (node : Nat)
    (hrec : ∀ n bs chain r, rc n bs chain = some r → ∀ x ∈ bs, x ∈ r.2) :
    ∀ (lst : List Nat) (bs : List (Nat × Nat)) (chain : List Nat) (bs' : List (Nat × Nat)),
    importerLoop g rc node lst bs chain = some (false, bs') →
    ∀ imp ∈ lst, node ∈ (g imp).acceptedHmrDeps → (imp, node) ∈ bs' := by
  intro lst
  induction lst with
  | nil =>
    intro bs chain bs' _ imp hmem
    exact absurd hmem (List.not_mem_nil imp)
  | cons a restL ih =>
    intro bs chain bs' h imp hmem hia
    simp only [importerLoop] at h
    by_cases ha : node ∈ (g a).acceptedHmrDeps
    · rw [if_pos ha] at h
      rcases List.mem_cons.1 hmem with heq | hm
      · subst heq
        exact importerLoop_mono g rc node hrec restL (bs ++ [(imp, node)]) chain
          (false, bs') h (imp, node)
          (List.mem_append_right _ (List.mem_singleton.2 rfl))
      · exact ih (bs ++ [(a, node)]) chain bs' h imp hm hia
    · rw [if_neg ha] at h
      by_cases hch : a ∈ chain
      · rw [if_pos hch] at h
        exact absurd (congrArg Prod.fst (Option.some.inj h)) (by simp)
      · rw [if_neg hch] at h
        cases hr : rc a bs (chain ++ [a]) with
        | none => rw [hr] at h; exact absurd h (by simp)
        | some rr =>
          obtain ⟨rb, rbs⟩ := rr
          rw [hr] at h
          cases rb with
          | true => exact absurd (congrArg Prod.fst (Option.some.inj h)) (by simp)
          | false =>
            rcases List.mem_cons.1 hmem with heq | hm
            · subst heq
              exact absurd hia ha
            · exact ih rbs chain bs' h imp hm hia

/-- C6 (amended): for a completed walk `propagateUpdate g fuel node = some (b, bs)`:
the walk reports a dead end (`b = true`) exactly when the dead-end relation `DeadEndP`
holds for the changed module along the main (non-CSS-side-walk) recursion — the node is
not self-accepting and has no importers, or is non-CSS with all-CSS importers, or some
non-accepting importer closes a cycle with the current chain, or some
non-accepting importer recursively reaches such a dead end; and when no dead end is reported and the
changed module is not self-accepting, every importer that declares it among its accepted
HMR deps appears in the boundary list with the module as `acceptedVia`. Dead ends reached
only through the CSS-importer side walk of a self-accepting node are NOT reported. -/
theorem c6_propagate_dead_end_amended (g : Nat → NodeData) (fuel node : Nat)
    (b : Bool) (bs : List (Nat × Nat))
    (h : propagateUpdate g fuel node = some (b, bs)) :
    (b = true ↔ DeadEndP g node [node]) ∧
    (b = false → (g node).isSelfAccepting = false →
      ∀ imp ∈ (g node).importers, node ∈ (g imp).acceptedHmrDeps → (imp, node) ∈ bs) := by
  constructor
  · constructor
    · intro hb
      subst hb
      exact propagate_true_dead g fuel node [] [node] bs h
    · intro hde
      exact dead_end_forces_true g hde fuel [] (b, bs) h
  · intro hb hsa imp hmem hia
    subst hb
    cases fuel with
    | zero => exact absurd h (by simp [propagateUpdate, propagateFuel])
    | succ f =>
      have h' : propagateFuel g (f + 1) node [] [node] = some (false, bs) := h
      simp only [propagateFuel] at h'
      rw [if_neg (by rw [hsa]; simp)] at h'
      by_cases hni : (g node).importers = []
      · rw [if_pos hni] at h'
        exact absurd (congrArg Prod.fst (Option.some.inj h')) (by simp)
      · rw [if_neg hni] at h'
        by_cases hcss : (!(isCSSRequest (g node).url) &&
            (g node).importers.all (fun i => isCSSRequest (g i).url)) = true
        · rw [if_pos hcss] at h'
          exact absurd (congrArg Prod.fst (Option.some.inj h')) (by simp)
        · rw [if_neg hcss] at h'
          exact importerLoop_boundary g (propagateFuel g f) node
            (fun n bs2 c r hh => propagate_mono g f n bs2 c r hh)
            (g node).importers [] [node] bs h' imp hmem hia

/-- A two-node graph: node 0 is a self-accepting JS module whose only importer is the
CSS module node 1; node 1 has no importers. -/
def c6g : Nat → NodeData := fun n =>
  if n = 0 then { url := "/b.js", type := "js", importers := [1], isSelfAccepting := true }
  else if n = 1 then { url := "/c.css", type := "css" }
  else mkModuleNode "/x.js"

/-- C6 counterexample to the original claim: the walk from node 0 visits node 1 through
the CSS-importer side walk (the exact recursive call the code makes is shown, and node 1
is a reached node that is not self-accepting and has no importers, so that sub-walk
reports a dead end) — yet the overall walk reports no dead end, because the CSS-importer
loop of a self-accepting node discards the recursion's boolean result. -/
theorem c6_css_swallow_counterexample :
    propagateUpdate c6g 3 0 = some (false, [(0, 0)]) ∧
    1 ∈ (c6g 0).importers ∧ isCSSRequest (c6g 1).url = true ∧
    (c6g 1).isSelfAccepting = false ∧ (c6g 1).importers = [] ∧
    propagateFuel c6g 2 1 [(0, 0)] [0, 1] = some (true, [(0, 0)]) := by
  refine ⟨rfl, ?_, rfl, rfl, rfl, rfl⟩
  show (1 : Nat) ∈ [1]
  exact List.mem_singleton.2 rfl

/-- A single isolated module that is not self-accepting. -/
def c6w : Nat → NodeData := fun _ => mkModuleNode "/solo.js"

theorem c6_propagate_dead_end_amended_witness :
    ((true : Bool) = true ↔ DeadEndP c6w 0 [0]) ∧
    ((true : Bool) = false → (c6w 0).isSelfAccepting = false →
      ∀ imp ∈ (c6w 0).importers, 0 ∈ (c6w imp).acceptedHmrDeps → (imp, 0) ∈ []) :=
  c6_propagate_dead_end_amended c6w 1 0 true [] rfl
